import Mathlib

/-!
Verification of the gtf-cpp GTF parser (gtf.h and its draft variant).

The development shallowly embeds the parsing core of `gtf.h`:
strings are `List Char`, the validation regular expression is embedded as a
small regex AST matched with Brzozowski derivatives, and the
`std::stringstream` extraction pipeline of `GTFFile::next_sequence` is
modelled as explicit state passing over a stream state (remaining
characters plus the fail flag).
-/

/-- Stream/regex whitespace: the characters of `std::isspace` in the "C"
locale, which coincide with the ASCII part of the ECMAScript `\s` class
used by `std::regex`. -/
def isWS (c : Char) : Bool :=
  c = ' ' || c = '\t' || c = '\n' || c = '\x0b' || c = '\x0c' || c = '\r'

/-- Characters removed by `GTFFile::trim`, which trims the set `" \t"` only. -/
def isTrimWS (c : Char) : Bool := c = ' ' || c = '\t'

/-- Regular expressions over characters, with character classes given by a
Boolean predicate.  `nul` (the empty language) only appears as an artifact
of derivative computation, never in the source pattern. -/
inductive RE where
  | eps : RE
  | nul : RE
  | cls : (Char → Bool) → RE
  | cat : RE → RE → RE
  | alt : RE → RE → RE
  | star : RE → RE

/-- Language semantics of a regular expression. -/
inductive RE.Matches : RE → List Char → Prop where
  | eps : RE.Matches .eps []
  | cls {p : Char → Bool} {c : Char} : p c = true → RE.Matches (.cls p) [c]
  | cat {r₁ r₂ : RE} {s₁ s₂ : List Char} :
      RE.Matches r₁ s₁ → RE.Matches r₂ s₂ → RE.Matches (.cat r₁ r₂) (s₁ ++ s₂)
  | altL {r₁ r₂ : RE} {s : List Char} : RE.Matches r₁ s → RE.Matches (.alt r₁ r₂) s
  | altR {r₁ r₂ : RE} {s : List Char} : RE.Matches r₂ s → RE.Matches (.alt r₁ r₂) s
  | starNil {r : RE} : RE.Matches (.star r) []
  | starCons {r : RE} {s₁ s₂ : List Char} :
      RE.Matches r s₁ → RE.Matches (.star r) s₂ → RE.Matches (.star r) (s₁ ++ s₂)

/-- Smart concatenation used by the derivative, simplifying `nul` and `eps`. -/
def RE.catS : RE → RE → RE
  | .nul, _ => .nul
  | .eps, r₂ => r₂
  | r₁, .nul => .nul
  | r₁, .eps => r₁
  | r₁, r₂ => .cat r₁ r₂

/-- Smart alternation used by the derivative, simplifying `nul`. -/
def RE.altS : RE → RE → RE
  | .nul, r₂ => r₂
  | r₁, .nul => r₁
  | r₁, r₂ => .alt r₁ r₂

/-- Does the regular expression accept the empty string? -/
def RE.nullable : RE → Bool
  | .eps => true
  | .nul => false
  | .cls _ => false
  | .cat r₁ r₂ => r₁.nullable && r₂.nullable
  | .alt r₁ r₂ => r₁.nullable || r₂.nullable
  | .star _ => true

/-- Brzozowski derivative of a regular expression by one character. -/
def RE.deriv : RE → Char → RE
  | .eps, _ => .nul
  | .nul, _ => .nul
  | .cls p, c => if p c then .eps else .nul
  | .cat r₁ r₂, c =>
      if r₁.nullable then .altS (.catS (r₁.deriv c) r₂) (r₂.deriv c)
      else .catS (r₁.deriv c) r₂
  | .alt r₁ r₂, c => .altS (r₁.deriv c) (r₂.deriv c)
  | .star r, c => .catS (r.deriv c) (.star r)

/-- Derivative-based matcher: accept `s` iff the iterated derivative is
nullable. -/
def RE.matchB (r : RE) (s : List Char) : Bool :=
  (s.foldl RE.deriv r).nullable

/-- One-or-more repetition, the regex `+` operator. -/
def RE.plus (r : RE) : RE := .cat r (.star r)

/-- Zero-or-one repetition, the regex `?` operator. -/
def RE.opt (r : RE) : RE := .alt .eps r

/-- The class `\S` (non-whitespace). -/
def nonWSre : RE := .cls (fun c => !isWS c)

/-- The literal `\t`. -/
def tabRE : RE := .cls (fun c => c = '\t')

/-- The class `\d` (a decimal digit). -/
def digitRE : RE := .cls Char.isDigit

/-- The class `[\t\s]` at the head of an attribute group. -/
def wsOrTabRE : RE := .cls (fun c => c = '\t' || isWS c)

/-- The class `\s`. -/
def wsRE : RE := .cls isWS

/-- The optional double quote `"?` around an attribute value. -/
def quoteOptRE : RE := RE.opt (.cls (fun c => c = '"'))

/-- The class `[^\s\t"]` of attribute-value characters. -/
def valCharRE : RE := .cls (fun c => !(isWS c || c = '\t' || c = '"'))

/-- The literal `;` ending an attribute group. -/
def semiRE : RE := .cls (fun c => c = ';')

/-- One attribute group of the validation pattern:
`[\t\s]\S+\s"?[^\s\t"]+"?;`. -/
def attrGroupRE : RE :=
  .cat wsOrTabRE (.cat (RE.plus nonWSre) (.cat wsRE (.cat quoteOptRE
    (.cat (RE.plus valCharRE) (.cat quoteOptRE semiRE)))))

/-- The validation pattern of gtf.h:
`^\S+\t\S+\t\S+\t\d+\t\d+\t\S+\t\S+\t\d([\t\s]\S+\s"?[^\s\t"]+"?;)*$`.
The `^`/`$` anchors are reflected by `valid_line` matching the whole
string. -/
def valid_gtf_line_regex : RE :=
  .cat (RE.plus nonWSre) (.cat tabRE
    (.cat (RE.plus nonWSre) (.cat tabRE
      (.cat (RE.plus nonWSre) (.cat tabRE
        (.cat (RE.plus digitRE) (.cat tabRE
          (.cat (RE.plus digitRE) (.cat tabRE
            (.cat (RE.plus nonWSre) (.cat tabRE
              (.cat (RE.plus nonWSre) (.cat tabRE
                (.cat digitRE (.star attrGroupRE)))))))))))))))

/-- `GTFFile::valid_line`: `std::regex_search(line, valid_gtf_line_regex)`.
Because the pattern is anchored with `^` and `$` (and the ECMAScript
grammar is in single-line mode), a search succeeds exactly when the whole
line matches the body of the pattern. -/
def valid_line (line : List Char) : Bool := RE.matchB valid_gtf_line_regex line

/-- `GTFFile::trim`: erase the trailing run of `" \t"` characters
(`find_last_not_of`), then the leading run (`find_first_not_of`).  An empty
string is returned unchanged. -/
def trim (str : List Char) : List Char :=
  if str = [] then str
  else ((str.reverse.dropWhile isTrimWS).reverse).dropWhile isTrimWS

/-- `std::string::erase(pos, count)`: remove `min count (size - pos)`
characters starting at `pos` (callers below always have `pos ≤ size`). -/
def strErase (l : List Char) (pos count : Nat) : List Char :=
  l.take pos ++ l.drop (pos + count)

/-- `GTFFile::sanitize_line` in gtf.h: find the first `'#'`; if present,
`line.erase(hashpos, line.size() - 1)`; then trim.  Note the second
argument of `erase` is the count `size - 1`, not "to the end". -/
def sanitize_line (line : List Char) : List Char :=
  if line = [] then line
  else
    let hashpos := (line.takeWhile (fun c => c ≠ '#')).length
    let l2 := if hashpos < line.length then strErase line hashpos (line.length - 1) else line
    trim l2

/-- `GTFFile::sanitize_line` in the draft variant (unnamed part_000):
identical except the erase is `line.erase(hashpos)`, removing everything
from the `'#'` to the end of the line. -/
def sanitize_line_p0 (line : List Char) : List Char :=
  if line = [] then line
  else
    let hashpos := (line.takeWhile (fun c => c ≠ '#')).length
    let l2 := if hashpos < line.length then line.take hashpos else line
    trim l2

/-- `GTFFile::sanitize_attr_value`: trim, return if empty, strip one
leading `'"'` (via `value[0]`), then test `value[value.size()-1]`.  When
the string became empty after stripping the leading quote, that second
access indexes position `size_t(-1)` of an empty `std::string` — an
out-of-bounds read (undefined behavior), modelled as `none`. -/
def sanitize_attr_value (value : List Char) : Option (List Char) :=
  let v := trim value
  if v = [] then some v
  else
    let v1 := if v.head? = some '"' then v.drop 1 else v
    match v1.getLast? with
    | none => none
    | some c => if c = '"' then some v1.dropLast else some v1

/-- The `double` score of a record.  `+infinity` is the `NO_SCORE`
sentinel value itself (the source compares doubles, so a parsed
`+infinity` is indistinguishable from the sentinel), `-infinity` and NaN
are the other non-finite doubles `atof` can produce, and finite doubles
are idealised as exact rationals. -/
inductive Score where
  | inf : Score
  | negInf : Score
  | nan : Score
  | val : ℚ → Score
deriving DecidableEq

/-- `#define NO_SCORE std::numeric_limits<double>::infinity()`. -/
def NO_SCORE : Score := Score.inf

/-- Numeric value of a digit string (most significant digit first). -/
def natVal (ds : List Char) : Nat :=
  ds.foldl (fun a c => 10 * a + (c.toNat - 48)) 0

/-- The unsigned part of `std::atof`: integer digits, optional `.` plus
fraction digits, optional exponent; `0` when no digits are found. -/
def atofUnsigned (s1 : List Char) : ℚ :=
  let ip := s1.takeWhile Char.isDigit
  let s2 := s1.dropWhile Char.isDigit
  let fp := if s2.head? = some '.' then (s2.drop 1).takeWhile Char.isDigit else []
  let s3 := if s2.head? = some '.' then (s2.drop 1).dropWhile Char.isDigit else s2
  if ip = [] && fp = [] then 0
  else
    let mant : ℚ := (natVal ip : ℚ) + (natVal fp : ℚ) / (10 : ℚ) ^ fp.length
    let ex : ℤ :=
      if s3.head? = some 'e' || s3.head? = some 'E' then
        let t := s3.drop 1
        let esgn : ℤ := if t.head? = some '-' then -1 else 1
        let t1 := if t.head? = some '-' || t.head? = some '+' then t.drop 1 else t
        let eds := t1.takeWhile Char.isDigit
        if eds = [] then 0 else esgn * (natVal eds : ℤ)
      else 0
    mant * (10 : ℚ) ^ ex

/-- The decimal branch of `std::atof` (= C `strtod`): skip leading
whitespace, optional sign, then the longest valid decimal prefix; `0`
when no digits are found.  Finite values are exact rationals (see
`Score`); the non-decimal `strtod` forms and the overflow clamp live in
`atofD`, which wraps this function. -/
def atofQ (s : List Char) : ℚ :=
  let s0 := s.dropWhile isWS
  let sgn : ℚ := if s0.head? = some '-' then -1 else 1
  let s1 := if s0.head? = some '-' || s0.head? = some '+' then s0.drop 1 else s0
  sgn * atofUnsigned s1

/-- `tolower` in the C locale, used for `strtod`'s case-insensitive
`inf`/`nan` spellings. -/
def lowc (c : Char) : Char :=
  if 65 ≤ c.toNat ∧ c.toNat ≤ 90 then Char.ofNat (c.toNat + 32) else c

/-- Case-insensitive: does the string begin with the given (lowercase)
pattern? -/
def ciStarts : List Char → List Char → Bool
  | [], _ => true
  | _ :: _, [] => false
  | p :: ps, c :: cs => lowc c = p && ciStarts ps cs

/-- Is the character a hexadecimal digit (`isxdigit` in the C locale)? -/
def isHexDigitC (c : Char) : Bool :=
  c.isDigit || (97 ≤ c.toNat && c.toNat ≤ 102) || (65 ≤ c.toNat && c.toNat ≤ 70)

/-- Value of one hexadecimal digit. -/
def hexDigitVal (c : Char) : Nat :=
  if c.isDigit then c.toNat - 48
  else if 97 ≤ c.toNat then c.toNat - 87
  else c.toNat - 55

/-- Numeric value of a hexadecimal digit string (most significant first). -/
def hexVal (ds : List Char) : Nat :=
  ds.foldl (fun a c => 16 * a + hexDigitVal c) 0

/-- Is the head of the string a hexadecimal digit? -/
def headIsHex : List Char → Bool
  | c :: _ => isHexDigitC c
  | [] => false

/-- Does the (sign-stripped) string begin a hexadecimal floating
constant: `0x`/`0X` followed by a hex digit, or by `.` and a hex digit?
Otherwise `strtod` falls back to the decimal parse (subject sequence
`0`). -/
def isHexStart : List Char → Bool
  | c0 :: c1 :: c2 :: rest =>
      c0 = '0' && (c1 = 'x' || c1 = 'X') &&
        (isHexDigitC c2 || (c2 = '.' && headIsHex rest))
  | _ => false

/-- The unsigned part of a hexadecimal floating constant (input after the
`0x` marker): hex digits, optional `.` plus hex fraction digits, optional
binary exponent `p`/`P` with optional sign. -/
def atofHexUnsigned (s1 : List Char) : ℚ :=
  let ip := s1.takeWhile isHexDigitC
  let s2 := s1.dropWhile isHexDigitC
  let fp := if s2.head? = some '.' then (s2.drop 1).takeWhile isHexDigitC else []
  let s3 := if s2.head? = some '.' then (s2.drop 1).dropWhile isHexDigitC else s2
  let mant : ℚ := (hexVal ip : ℚ) + (hexVal fp : ℚ) / (16 : ℚ) ^ fp.length
  let ex : ℤ :=
    if s3.head? = some 'p' || s3.head? = some 'P' then
      let t := s3.drop 1
      let esgn : ℤ := if t.head? = some '-' then -1 else 1
      let t1 := if t.head? = some '-' || t.head? = some '+' then t.drop 1 else t
      let eds := t1.takeWhile Char.isDigit
      if eds = [] then 0 else esgn * (natVal eds : ℤ)
    else 0
  mant * (2 : ℚ) ^ ex

/-- The round-to-nearest overflow threshold of `double`:
`2 ^ 1024 - 2 ^ 970` (see `dblOvf_eq`), the midpoint between `DBL_MAX =
2 ^ 1024 - 2 ^ 971` and `2 ^ 1024`.  `strtod` returns `±HUGE_VAL`
(`±infinity`) for values of magnitude at or above it. -/
def dblOvf : ℚ := 179769313486231580793728971405303415079934132710037826936173778980444968292764750946649017977587207096330286416692887910946555547851940402630657488671505820681908902000708383676273854845817711531764475730270069855571366959622842914819860834936475292719074168444365510704342711559699508093042880177904174497792

/-- Whitespace skip and sign strip shared by the `strtod` forms. -/
def sgnStripWS (s : List Char) : List Char :=
  if (s.dropWhile isWS).head? = some '-' || (s.dropWhile isWS).head? = some '+' then
    (s.dropWhile isWS).drop 1
  else s.dropWhile isWS

/-- `std::atof` = C `strtod` value semantics: after whitespace and an
optional sign, the case-insensitive `inf`/`infinity` spellings give
`±infinity`, the `nan` spellings give NaN, a `0x` form is parsed as a
hexadecimal floating constant and anything else as a decimal one (`0`
when no digits are found), and a finite result of magnitude at or above
the `double` overflow threshold becomes `±infinity` (`±HUGE_VAL`).
Finite results are idealised as exact rationals. -/
def atofD (s : List Char) : Score :=
  let s0 := s.dropWhile isWS
  let sgn : ℚ := if s0.head? = some '-' then -1 else 1
  let s1 := sgnStripWS s
  if ciStarts ['i', 'n', 'f'] s1 then
    if s0.head? = some '-' then Score.negInf else Score.inf
  else if ciStarts ['n', 'a', 'n'] s1 then Score.nan
  else
    let v : ℚ :=
      if isHexStart s1 then sgn * atofHexUnsigned (s1.drop 2) else sgn * atofUnsigned s1
    if v ≤ -dblOvf then Score.negInf
    else if dblOvf ≤ v then Score.inf
    else Score.val v

/-- `struct GTFSequence`: the decoded record.  `std::size_t` fields are
naturals (64-bit semantics live in the extraction operations), `frame`
(`short`) is an integer, and the `std::map` of attributes is an
association list with unique keys kept in insertion order; `end` is a
Lean keyword, hence `end_`. -/
structure GTFSequence where
  seqname : List Char
  source : List Char
  feature : List Char
  start : Nat
  end_ : Nat
  score : Score
  strand : Char
  frame : Int
  attributes : List (List Char × List Char)
deriving DecidableEq

/-- `has_attribute`: membership of a key in the attribute map. -/
def GTFSequence.has_attribute (seq : GTFSequence) (attr : List Char) : Bool :=
  (seq.attributes.find? (fun e => e.1 = attr)).isSome

/-- `std::map::operator[]` followed by assignment: replace the value of an
existing key in place, otherwise append the new binding. -/
def mapInsert (m : List (List Char × List Char)) (k v : List Char) :
    List (List Char × List Char) :=
  match m with
  | [] => [(k, v)]
  | (k', v') :: t => if k' = k then (k, v) :: t else (k', v') :: mapInsert t k v

/-- Lookup in the attribute association list. -/
def lookupA (m : List (List Char × List Char)) (k : List Char) : Option (List Char) :=
  match m with
  | [] => none
  | (k', v') :: t => if k' = k then some v' else lookupA t k

/-- State of the `std::stringstream` used by `next_sequence`: the
characters not yet consumed and the fail flag (`eofbit` is equivalent to
`rem = []` for the operations used here, see `getlineSemi`). -/
structure SS where
  rem : List Char
  fail : Bool
deriving DecidableEq

/-- `operator>>(istream, std::string&)`: skip whitespace (the sentry fails
and leaves the string untouched when only whitespace remains), then clear
the target and extract the maximal non-whitespace run. -/
def readStr (s : SS) (old : List Char) : SS × List Char :=
  if s.fail then (s, old)
  else
    let r := s.rem.dropWhile isWS
    if r = [] then (⟨r, true⟩, old)
    else (⟨r.dropWhile (fun c => !isWS c), false⟩, r.takeWhile (fun c => !isWS c))

/-- `operator>>(istream, std::size_t&)` with C++11 `num_get` semantics:
skip whitespace, consume an optional sign and a digit run; an empty digit
field stores `0` and sets `failbit`; an out-of-range value stores
`2^64 - 1` and sets `failbit`; a minus sign negates modulo `2^64`. -/
def readNat64 (s : SS) (old : Nat) : SS × Nat :=
  if s.fail then (s, old)
  else
    let r := s.rem.dropWhile isWS
    if r = [] then (⟨r, true⟩, old)
    else
      let neg := r.head? = some '-'
      let r1 := if r.head? = some '-' || r.head? = some '+' then r.drop 1 else r
      let ds := r1.takeWhile Char.isDigit
      let r2 := r1.dropWhile Char.isDigit
      if ds = [] then (⟨r2, true⟩, 0)
      else
        let n := natVal ds
        if n ≤ 18446744073709551615 then
          (⟨r2, false⟩, if neg then (2 ^ 64 - n % 2 ^ 64) % 2 ^ 64 else n)
        else (⟨r2, true⟩, 18446744073709551615)

/-- `operator>>(istream, char&)`: skip whitespace and take one character;
at end of input set `failbit` and leave the target unchanged. -/
def readChar (s : SS) (old : Char) : SS × Char :=
  if s.fail then (s, old)
  else
    match s.rem.dropWhile isWS with
    | [] => (⟨[], true⟩, old)
    | c :: t => (⟨t, false⟩, c)

/-- `operator>>(istream, short&)` with C++11 `num_get` semantics: failure
stores `0`, out-of-range stores the clamped extreme, both set `failbit`. -/
def readShort (s : SS) (old : Int) : SS × Int :=
  if s.fail then (s, old)
  else
    let r := s.rem.dropWhile isWS
    if r = [] then (⟨r, true⟩, old)
    else
      let neg := r.head? = some '-'
      let r1 := if r.head? = some '-' || r.head? = some '+' then r.drop 1 else r
      let ds := r1.takeWhile Char.isDigit
      let r2 := r1.dropWhile Char.isDigit
      if ds = [] then (⟨r2, true⟩, 0)
      else
        let v : Int := if neg then -(natVal ds : Int) else (natVal ds : Int)
        if v > 32767 then (⟨r2, true⟩, 32767)
        else if v < -32768 then (⟨r2, true⟩, -32768)
        else (⟨r2, false⟩, v)

/-- `std::getline(ss, tmpval, ';')`: the sentry fails (leaving the target
untouched) if the stream already failed or is at end of input; otherwise
the target is cleared and characters are read up to the first `';'`,
which is consumed but not stored. -/
def getlineSemi (s : SS) (old : List Char) : SS × List Char :=
  if s.fail then (s, old)
  else
    match s.rem with
    | [] => (⟨[], true⟩, old)
    | _ :: _ =>
        let pre := s.rem.takeWhile (fun c => c ≠ ';')
        (⟨(s.rem.dropWhile (fun c => c ≠ ';')).drop 1, false⟩, pre)

/-- The attribute loop of `next_sequence`:
`while (ss >> tmpkey) { getline(ss, tmpval, ';'); attributes[tmpkey] = sanitize_attr_value(tmpval); }`.
`tmpkey`/`tmpval` persist across iterations (extraction failures leave
them unchanged).  The fuel argument only bounds the recursion;
`rem.length + 1` is always sufficient because a successful key extraction
consumes at least one character.  A `none` result models the
out-of-bounds read inside `sanitize_attr_value`. -/
def attrLoop : Nat → SS → List Char → List Char →
    List (List Char × List Char) → Option (List (List Char × List Char))
  | 0, _, _, _, _ => none
  | fuel + 1, s, tmpkey, tmpval, m =>
      let p1 := readStr s tmpkey
      if p1.1.fail then some m
      else
        let p2 := getlineSemi p1.1 tmpval
        match sanitize_attr_value p2.2 with
        | none => none
        | some v2 => attrLoop fuel p2.1 p1.2 v2 (mapInsert m p1.2 v2)

/-- The eight fixed extractions of `next_sequence`, in source order:
`ss >> seqname >> source >> feature >> start >> end >> tmpscore >> strand >> frame`.
Returns the stream state after `frame`, the record with the fixed fields
updated (score and attributes still pending), and `tmpscore`. -/
def fixedPhase (rec : GTFSequence) (l : List Char) : SS × GTFSequence × List Char :=
  let s0 : SS := ⟨l, false⟩
  let p1 := readStr s0 rec.seqname
  let p2 := readStr p1.1 rec.source
  let p3 := readStr p2.1 rec.feature
  let p4 := readNat64 p3.1 rec.start
  let p5 := readNat64 p4.1 rec.end_
  let p6 := readStr p5.1 []
  let p7 := readChar p6.1 rec.strand
  let p8 := readShort p7.1 rec.frame
  (p8.1,
   { rec with
      seqname := p1.2, source := p2.2, feature := p3.2,
      start := p4.2, end_ := p5.2, strand := p7.2, frame := p8.2 },
   p6.2)

/-- Decoding of one already-sanitized, grammar-accepted line by
`next_sequence`: run the fixed extractions, branch on `tmpscore == "."`,
clear the attributes and run the attribute loop.  The caller's record is
the scratch storage reused across calls; `none` models the undefined
behavior reachable in `sanitize_attr_value`. -/
def decodeLine (rec : GTFSequence) (l : List Char) : Option GTFSequence :=
  let t := fixedPhase rec l
  let score := if t.2.2 = ['.'] then NO_SCORE else atofD t.2.2
  (attrLoop (t.1.rem.length + 1) t.1 [] [] []).map
    (fun m => { t.2.1 with score := score, attributes := m })

/-- A maximal-token property: a nonempty string of non-whitespace characters. -/
def NWtok (s : List Char) : Prop := s ≠ [] ∧ ∀ c ∈ s, isWS c = false

/-- A nonempty string of decimal digits. -/
def DGtok (s : List Char) : Prop := s ≠ [] ∧ ∀ c ∈ s, c.isDigit = true

/-- Decomposition of the attribute part of a line accepted by
`valid_gtf_line_regex`: a sequence of groups, each one whitespace
character, a key, one whitespace character, an optional quote, a nonempty
run of non-whitespace non-quote characters, an optional quote and a
semicolon. -/
inductive AttrChunks : List Char → Prop where
  | nil : AttrChunks []
  | grp (w : Char) (k : List Char) (w2 : Char) (q1 v q2 rest : List Char) :
      isWS w = true → NWtok k → isWS w2 = true →
      (q1 = [] ∨ q1 = ['"']) →
      (v ≠ [] ∧ ∀ c ∈ v, isWS c = false ∧ c ≠ '"') →
      (q2 = [] ∨ q2 = ['"']) →
      AttrChunks rest →
      AttrChunks (w :: (k ++ w2 :: (q1 ++ v ++ q2 ++ ';' :: rest)))

/-- Structural decomposition of a line accepted by the gtf.h pattern:
eight tab-separated fixed columns (columns 4 and 5 digit-only, column 8 a
single digit) followed by attribute groups. -/
def RegexDecomp (l : List Char) : Prop :=
  ∃ (c1 c2 c3 d4 d5 c6 c7 : List Char) (d8 : Char) (rest : List Char),
    l = c1 ++ '\t' :: (c2 ++ '\t' :: (c3 ++ '\t' :: (d4 ++ '\t' :: (d5 ++ '\t' ::
      (c6 ++ '\t' :: (c7 ++ '\t' :: (d8 :: rest))))))) ∧
    NWtok c1 ∧ NWtok c2 ∧ NWtok c3 ∧ DGtok d4 ∧ DGtok d5 ∧ NWtok c6 ∧ NWtok c7 ∧
    d8.isDigit = true ∧ AttrChunks rest

/-- Guard on the first character of the rest of the input: trivially true
when the input is exhausted. -/
def headOK (p : Char → Bool) : List Char → Bool
  | [] => true
  | c :: _ => p c

/-- Whitespace-run tokenization with explicit fuel (structural recursion,
so that it evaluates inside the kernel); `length + 1` fuel always
suffices since each step consumes at least one character. -/
def wsTokensF : Nat → List Char → List (List Char)
  | 0, _ => []
  | fuel + 1, l =>
      let l1 := l.dropWhile isWS
      if l1 = [] then []
      else (l1.takeWhile (fun c => !isWS c)) ::
        wsTokensF fuel (l1.dropWhile (fun c => !isWS c))

/-- Whitespace-run tokenization of a line: the successive maximal
non-whitespace runs, used to speak about "column i" of a line. -/
def wsTokens (l : List Char) : List (List Char) := wsTokensF (l.length + 1) l

/-- Column `i` (0-based) of a line, as the `i`-th whitespace-separated
token. -/
def colTok (l : List Char) (i : Nat) : List Char := (wsTokens l).getD i []

/-- A default scratch record, standing for the caller-supplied
`GTFSequence` storage before any successful read. -/
def defaultSeq : GTFSequence :=
  ⟨[], [], [], 0, 0, Score.val 0, ' ', 0, []⟩

/-- `GTFFile::next_sequence` over the remaining lines of the file: read a
line, sanitize it, skip it when `valid_line` rejects it, otherwise decode
it and return the record together with the unread lines.  `none` at the
end of input corresponds to returning `false`. -/
def next_sequence (rec : GTFSequence) : List (List Char) →
    Option (GTFSequence × List (List Char))
  | [] => none
  | line :: rest =>
      let s := sanitize_line line
      if valid_line s then (decodeLine rec s).map (fun r => (r, rest))
      else next_sequence rec rest

/-- A column of the claim-level grammar: a nonempty whitespace-free token
(this and the following definitions follow the claim's wording, to be
compared with the pattern embedded from the source). -/
def SpecCol (s : List Char) : Prop := s ≠ [] ∧ ∀ c ∈ s, isWS c = false

/-- A separator of the claim-level grammar: a nonempty run of
whitespace/tab characters. -/
def SpecSep (s : List Char) : Prop := s ≠ [] ∧ ∀ c ∈ s, isWS c = true

/-- A digit-only column of the claim-level grammar. -/
def SpecDigits (s : List Char) : Prop := s ≠ [] ∧ ∀ c ∈ s, c.isDigit = true

/-- Zero or more `key value;` attribute groups, as the claim words them:
separator, key token, separator, value token, terminating semicolon. -/
inductive SpecAttrGroups : List Char → Prop where
  | nil : SpecAttrGroups []
  | grp (s1 k s2 v rest : List Char) :
      SpecSep s1 → SpecCol k → SpecSep s2 → SpecCol v →
      SpecAttrGroups rest →
      SpecAttrGroups (s1 ++ k ++ s2 ++ v ++ ';' :: rest)

/-- The grammar described by claim C1, anchored at both ends: the whole
line is eight whitespace/tab-separated non-whitespace columns, columns 4
and 5 digit-only, followed by zero or more `key value;` groups and
nothing else. -/
def SpecGrammar (l : List Char) : Prop :=
  ∃ (c1 s1 c2 s2 c3 s3 c4 s4 c5 s5 c6 s6 c7 s7 c8 rest : List Char),
    l = c1 ++ s1 ++ c2 ++ s2 ++ c3 ++ s3 ++ c4 ++ s4 ++ c5 ++ s5 ++ c6 ++ s6 ++
      c7 ++ s7 ++ c8 ++ rest ∧
    SpecCol c1 ∧ SpecSep s1 ∧ SpecCol c2 ∧ SpecSep s2 ∧ SpecCol c3 ∧ SpecSep s3 ∧
    SpecCol c4 ∧ SpecDigits c4 ∧ SpecSep s4 ∧ SpecCol c5 ∧ SpecDigits c5 ∧ SpecSep s5 ∧
    SpecCol c6 ∧ SpecSep s6 ∧ SpecCol c7 ∧ SpecSep s7 ∧ SpecCol c8 ∧
    SpecAttrGroups rest

/-- A line consisting only of a comment: an all-`" \t"` prefix followed by
`'#'` and arbitrary text. -/
def CommentOnly (l : List Char) : Prop :=
  ∃ pre post, l = pre ++ '#' :: post ∧ ∀ c ∈ pre, isTrimWS c = true

/-- `GTFFile::GTFFile(filename)` in gtf.h: constructing over a path whose
open fails throws `GTFError("Error opening GTF file")` before any line is
read; the open result is an input from the environment. -/
def GTFFile_construct (filename : List Char) (openOk : Bool) : Except (List Char) Unit :=
  if openOk then Except.ok () else Except.error ("Error opening GTF file".toList)

/-- `GTFFile::load` in the draft variant (unnamed part_000): the same
check, but the thrown message is
`"Error opening GTF file " + file + "!"`, which carries the path. -/
def GTFFile_load_p0 (file : List Char) (openOk : Bool) : Except (List Char) Unit :=
  if openOk then Except.ok ()
  else Except.error ("Error opening GTF file ".toList ++ file ++ "!".toList)

/-- Does `needle` start `hay`? -/
def startsWithSeg : List Char → List Char → Bool
  | [], _ => true
  | _ :: _, [] => false
  | a :: as, b :: bs => a = b && startsWithSeg as bs

/-- Does `needle` occur as a contiguous segment of `hay`? -/
def containsSeg (needle : List Char) : List Char → Bool
  | [] => needle.isEmpty
  | c :: t => startsWithSeg needle (c :: t) || containsSeg needle t

/-- The ordered list of `(key, sanitized value)` assignments performed by
the attribute loop, mirroring `attrLoop` event by event. -/
def attrEvents : Nat → SS → List Char → List Char →
    Option (List (List Char × List Char))
  | 0, _, _, _ => none
  | fuel + 1, s, tmpkey, tmpval =>
      let p1 := readStr s tmpkey
      if p1.1.fail then some []
      else
        let p2 := getlineSemi p1.1 tmpval
        match sanitize_attr_value p2.2 with
        | none => none
        | some v2 => (attrEvents fuel p2.1 p1.2 v2).map (fun evs => (p1.2, v2) :: evs)

/-- The attribute events of one decoded line, starting right after the
eight fixed extractions. -/
def lineAttrEvents (rec : GTFSequence) (l : List Char) :
    Option (List (List Char × List Char)) :=
  attrEvents ((fixedPhase rec l).1.rem.length + 1) (fixedPhase rec l).1 [] []

/-- The keys of an attribute map are pairwise distinct. -/
def KeysNodup (m : List (List Char × List Char)) : Prop :=
  (m.map Prod.fst).Nodup

/-- One decimal digit character. -/
def digitChar : Nat → Char
  | 0 => '0'
  | 1 => '1'
  | 2 => '2'
  | 3 => '3'
  | 4 => '4'
  | 5 => '5'
  | 6 => '6'
  | 7 => '7'
  | 8 => '8'
  | _ => '9'

/-- Decimal digits of a natural number, with explicit fuel (structural so
that it evaluates in the kernel); fuel `n + 1` always suffices. -/
def natDigitsF : Nat → Nat → List Char
  | 0, _ => []
  | fuel + 1, n =>
      if n < 10 then [digitChar n]
      else natDigitsF fuel (n / 10) ++ [digitChar (n % 10)]

/-- Decimal digits of a natural number, most significant first. -/
def natDigits (n : Nat) : List Char := natDigitsF (n + 1) n

/-- Decimal rendering of an integer. -/
def intDigits (i : Int) : List Char :=
  if i < 0 then '-' :: natDigits i.natAbs else natDigits i.natAbs

/-- Largest exponent `e` with `p ^ e` dividing `n` (0 for `p ≤ 1` or
`n = 0`), with fuel. -/
def pvalF : Nat → Nat → Nat → Nat
  | 0, _, _ => 0
  | fuel + 1, p, n =>
      if 1 < p ∧ 0 < n ∧ n % p = 0 then pvalF fuel p (n / p) + 1 else 0

/-- Largest exponent `e` with `p ^ e` dividing `n`. -/
def pval (p n : Nat) : Nat := pvalF n p n

/-- Is the rational exactly representable as a finite decimal (denominator
of the form `2^a * 5^b`)?  These are exactly the values `atof` produces. -/
def isDecimalRat (q : ℚ) : Bool :=
  q.den = 2 ^ pval 2 q.den * 5 ^ pval 5 q.den

/-- Decimal rendering of the nonnegative rational `num / den` using scale
`k` (callers ensure `den` divides `10 ^ k`). -/
def renderPosQ (num den k : Nat) : List Char :=
  let m := num * 10 ^ k / den
  if k = 0 then natDigits m
  else natDigits (m / 10 ^ k) ++ '.' ::
    (List.replicate (k - (natDigits (m % 10 ^ k)).length) '0' ++ natDigits (m % 10 ^ k))

/-- Decimal rendering of a decimal rational. -/
def renderQ (q : ℚ) : List Char :=
  if q.num < 0 then '-' :: renderPosQ q.num.natAbs q.den (max (pval 2 q.den) (pval 5 q.den))
  else renderPosQ q.num.natAbs q.den (max (pval 2 q.den) (pval 5 q.den))

/-- Modelled from the spec: the external writer renders the score column;
the no-score sentinel is written back as `.` (the only lossless choice),
a finite score as its decimal expansion.  The spec gives the writer no
output for the other non-finite doubles; they are excluded from the
round-trip domain (`WFSeqB`) and rendered arbitrarily as `.`. -/
def renderScore : Score → List Char
  | Score.inf => ['.']
  | Score.val q => renderQ q
  | Score.negInf => ['.']
  | Score.nan => ['.']

/-- Modelled from the spec: each attribute is rendered as
`key "value";`, appended after the fixed columns separated by single
spaces. -/
def renderAttrs : List (List Char × List Char) → List Char
  | [] => []
  | e :: t => ' ' :: (e.1 ++ ' ' :: '"' :: (e.2 ++ '"' :: ';' :: renderAttrs t))

/-- Modelled from the spec: serialization of a Record back to the line
format — the eight fixed columns tab-joined, followed by the rendered
attributes. -/
def serialize (r : GTFSequence) : List Char :=
  r.seqname ++ '\t' :: (r.source ++ '\t' :: (r.feature ++ '\t' ::
    (natDigits r.start ++ '\t' :: (natDigits r.end_ ++ '\t' ::
      (renderScore r.score ++ '\t' :: (r.strand :: '\t' ::
        (intDigits r.frame ++ renderAttrs r.attributes)))))))

/-- Bool-valued well-formedness of a record for lossless serialization:
nonempty whitespace-free fixed tokens, coordinates within the 64-bit
range, a score that is the sentinel or a finite decimal value inside the
`double` range (every score a real run can hold satisfies this: finite
doubles are decimal rationals of magnitude below `dblOvf`), a
single-digit frame and attribute keys/values free of whitespace, quotes
and semicolons. -/
def WFSeqB (r : GTFSequence) : Bool :=
  (!r.seqname.isEmpty) && r.seqname.all (fun c => !isWS c) &&
  ((!r.source.isEmpty) && r.source.all (fun c => !isWS c)) &&
  ((!r.feature.isEmpty) && r.feature.all (fun c => !isWS c)) &&
  (decide (r.start ≤ 18446744073709551615)) &&
  (decide (r.end_ ≤ 18446744073709551615)) &&
  (match r.score with
   | Score.inf => true
   | Score.val q => isDecimalRat q && decide (q < dblOvf) && decide (-dblOvf < q)
   | Score.negInf => false
   | Score.nan => false) &&
  (!isWS r.strand) &&
  (decide (0 ≤ r.frame) && decide (r.frame ≤ 9)) &&
  r.attributes.all (fun e =>
    (!e.1.isEmpty) && e.1.all (fun c => !isWS c) &&
    ((!e.2.isEmpty) && e.2.all (fun c => !isWS c && !(c = '"') && !(c = ';'))))

theorem RE.not_matches_nul {s : List Char} : ¬ RE.Matches .nul s := by
  intro h; cases h

theorem RE.matches_eps_iff {s : List Char} : RE.Matches .eps s ↔ s = [] := by
  constructor
  · intro h; cases h; rfl
  · rintro rfl; exact .eps

theorem RE.matches_cls_iff {p : Char → Bool} {s : List Char} :
    RE.Matches (.cls p) s ↔ ∃ c, s = [c] ∧ p c = true := by
  constructor
  · intro h; cases h with
    | cls hp => exact ⟨_, rfl, hp⟩
  · rintro ⟨c, rfl, hp⟩; exact .cls hp

theorem RE.matches_cat_iff {r₁ r₂ : RE} {s : List Char} :
    RE.Matches (.cat r₁ r₂) s ↔
      ∃ s₁ s₂, s = s₁ ++ s₂ ∧ RE.Matches r₁ s₁ ∧ RE.Matches r₂ s₂ := by
  constructor
  · intro h; cases h with
    | cat h₁ h₂ => exact ⟨_, _, rfl, h₁, h₂⟩
  · rintro ⟨s₁, s₂, rfl, h₁, h₂⟩; exact .cat h₁ h₂

theorem RE.matches_alt_iff {r₁ r₂ : RE} {s : List Char} :
    RE.Matches (.alt r₁ r₂) s ↔ RE.Matches r₁ s ∨ RE.Matches r₂ s := by
  constructor
  · intro h; cases h with
    | altL h => exact .inl h
    | altR h => exact .inr h
  · rintro (h | h)
    · exact .altL h
    · exact .altR h

theorem RE.matches_catS {r₁ r₂ : RE} {s : List Char} :
    RE.Matches (.catS r₁ r₂) s ↔ RE.Matches (.cat r₁ r₂) s := by
  cases r₁ <;> cases r₂ <;>
    simp only [RE.catS] <;>
    simp only [RE.matches_cat_iff, RE.matches_eps_iff] <;>
    constructor <;>
    first
    | (intro h; exact absurd h RE.not_matches_nul)
    | (rintro ⟨s₁, s₂, rfl, h₁, h₂⟩;
       first
       | exact absurd h₁ RE.not_matches_nul
       | exact absurd h₂ RE.not_matches_nul
       | (obtain rfl := h₁; exact h₂)
       | (obtain rfl := h₂; simpa using h₁)
       | exact ⟨s₁, s₂, rfl, h₁, h₂⟩)
    | (intro h; exact ⟨[], s, rfl, rfl, h⟩)
    | (intro h; exact ⟨s, [], by simp, h, rfl⟩)
    | (intro h; exact h)

theorem RE.matches_altS {r₁ r₂ : RE} {s : List Char} :
    RE.Matches (.altS r₁ r₂) s ↔ RE.Matches (.alt r₁ r₂) s := by
  cases r₁ <;> cases r₂ <;>
    simp only [RE.altS] <;>
    simp only [RE.matches_alt_iff] <;>
    constructor <;>
    first
    | (rintro (h | h);
       · first
         | exact absurd h RE.not_matches_nul
         | exact h
         | exact .inl h
       · first
         | exact absurd h RE.not_matches_nul
         | exact h
         | exact .inr h)
    | (intro h; exact .inl h)
    | (intro h; exact .inr h)
    | (intro h; exact h)

theorem RE.nullable_iff {r : RE} : r.nullable = true ↔ RE.Matches r [] := by
  induction r with
  | eps => simp [RE.nullable, RE.matches_eps_iff]
  | nul => simp [RE.nullable]; exact RE.not_matches_nul
  | cls p => simp [RE.nullable, RE.matches_cls_iff]
  | cat r₁ r₂ ih₁ ih₂ =>
      simp only [RE.nullable, Bool.and_eq_true, ih₁, ih₂, RE.matches_cat_iff]
      constructor
      · rintro ⟨h₁, h₂⟩; exact ⟨[], [], rfl, h₁, h₂⟩
      · rintro ⟨s₁, s₂, hs, h₁, h₂⟩
        obtain ⟨rfl, rfl⟩ := List.append_eq_nil.mp hs.symm
        exact ⟨h₁, h₂⟩
  | alt r₁ r₂ ih₁ ih₂ =>
      simp [RE.nullable, ih₁, ih₂, RE.matches_alt_iff]
  | star r ih =>
      simp [RE.nullable]
      exact .starNil

/-- Inversion for star on a nonempty string: peel off a nonempty first chunk.
The statement takes the cons-shape as an equation so that induction on the
derivation goes through. -/
theorem RE.star_cons_elim {r : RE} {l : List Char} (h : RE.Matches (.star r) l) :
    ∀ c s, l = c :: s →
      ∃ s₁ s₂, s = s₁ ++ s₂ ∧ RE.Matches r (c :: s₁) ∧ RE.Matches (.star r) s₂ := by
  generalize hr : RE.star r = rr at h
  induction h with
  | eps => exact absurd hr (by intro h; cases h)
  | cls _ => exact absurd hr (by intro h; cases h)
  | cat _ _ => exact absurd hr (by intro h; cases h)
  | altL _ => exact absurd hr (by intro h; cases h)
  | altR _ => exact absurd hr (by intro h; cases h)
  | starNil => intro c s hcs; cases hcs
  | starCons h₁ h₂ ih₁ ih₂ =>
      cases hr
      intro c s hcs
      rename_i s₁ s₂
      cases s₁ with
      | nil => exact ih₂ rfl c s hcs
      | cons c' t =>
          simp only [List.cons_append] at hcs
          obtain ⟨rfl, rfl⟩ := by exact And.intro (List.head_eq_of_cons_eq hcs) (List.tail_eq_of_cons_eq hcs)
          exact ⟨t, s₂, rfl, h₁, h₂⟩

theorem RE.deriv_iff {r : RE} {c : Char} {s : List Char} :
    RE.Matches (r.deriv c) s ↔ RE.Matches r (c :: s) := by
  induction r generalizing s with
  | eps =>
      simp only [RE.deriv]
      constructor
      · intro h; exact absurd h RE.not_matches_nul
      · intro h; cases h
  | nul =>
      simp only [RE.deriv]
      constructor
      · intro h; exact absurd h RE.not_matches_nul
      · intro h; exact absurd h RE.not_matches_nul
  | cls p =>
      simp only [RE.deriv]
      by_cases hp : p c = true
      · simp only [hp, if_true, RE.matches_eps_iff, RE.matches_cls_iff]
        constructor
        · rintro rfl; exact ⟨c, rfl, hp⟩
        · rintro ⟨c', hcc, _⟩
          cases hcc; rfl
      · simp only [hp, if_false, Bool.false_eq_true]
        constructor
        · intro h; exact absurd h RE.not_matches_nul
        · intro h
          rcases RE.matches_cls_iff.mp h with ⟨c', hcc, hp'⟩
          cases hcc
          exact absurd hp' hp
  | cat r₁ r₂ ih₁ ih₂ =>
      simp only [RE.deriv]
      by_cases hn : r₁.nullable = true
      · simp only [hn, if_true, RE.matches_altS, RE.matches_alt_iff, RE.matches_catS,
          RE.matches_cat_iff]
        constructor
        · rintro (⟨s₁, s₂, rfl, h₁, h₂⟩ | h)
          · exact ⟨c :: s₁, s₂, rfl, ih₁.mp h₁, h₂⟩
          · exact ⟨[], c :: s, rfl, RE.nullable_iff.mp hn, ih₂.mp h⟩
        · rintro ⟨s₁, s₂, hs, h₁, h₂⟩
          cases s₁ with
          | nil =>
              cases hs
              exact .inr (ih₂.mpr h₂)
          | cons c' t =>
              simp only [List.cons_append] at hs
              obtain rfl := List.head_eq_of_cons_eq hs
              obtain rfl := List.tail_eq_of_cons_eq hs
              exact .inl ⟨t, s₂, rfl, ih₁.mpr h₁, h₂⟩
      · simp only [hn, if_false, RE.matches_catS, RE.matches_cat_iff, Bool.false_eq_true]
        constructor
        · rintro ⟨s₁, s₂, rfl, h₁, h₂⟩
          exact ⟨c :: s₁, s₂, rfl, ih₁.mp h₁, h₂⟩
        · rintro ⟨s₁, s₂, hs, h₁, h₂⟩
          cases s₁ with
          | nil =>
              cases hs
              exact absurd (RE.nullable_iff.mpr h₁) hn
          | cons c' t =>
              simp only [List.cons_append] at hs
              obtain rfl := List.head_eq_of_cons_eq hs
              obtain rfl := List.tail_eq_of_cons_eq hs
              exact ⟨t, s₂, rfl, ih₁.mpr h₁, h₂⟩
  | alt r₁ r₂ ih₁ ih₂ =>
      simp only [RE.deriv, RE.matches_altS, RE.matches_alt_iff]
      constructor
      · rintro (h | h)
        · exact .inl (ih₁.mp h)
        · exact .inr (ih₂.mp h)
      · rintro (h | h)
        · exact .inl (ih₁.mpr h)
        · exact .inr (ih₂.mpr h)
  | star r ih =>
      simp only [RE.deriv, RE.matches_catS, RE.matches_cat_iff]
      constructor
      · rintro ⟨s₁, s₂, rfl, h₁, h₂⟩
        exact .starCons (ih.mp h₁) h₂
      · intro h
        obtain ⟨s₁, s₂, rfl, h₁, h₂⟩ := RE.star_cons_elim h c s rfl
        exact ⟨s₁, s₂, rfl, ih.mpr h₁, h₂⟩

theorem RE.matchB_iff {r : RE} {s : List Char} :
    RE.matchB r s = true ↔ RE.Matches r s := by
  induction s generalizing r with
  | nil => simpa [RE.matchB] using RE.nullable_iff
  | cons c t ih =>
      simpa [RE.matchB, List.foldl_cons] using (ih (r := r.deriv c)).trans RE.deriv_iff

theorem RE.matches_star_cls {p : Char → Bool} {s : List Char} :
    RE.Matches (.star (.cls p)) s ↔ ∀ c ∈ s, p c = true := by
  constructor
  · intro h
    induction s with
    | nil => intro c hc; cases hc
    | cons c t ih =>
        obtain ⟨s₁, s₂, ht, h₁, h₂⟩ := RE.star_cons_elim h c t rfl
        obtain ⟨c', hc', hp⟩ := RE.matches_cls_iff.mp h₁
        have hs₁ : s₁ = [] := by
          cases s₁ with
          | nil => rfl
          | cons a b => simp at hc'
        subst hs₁
        obtain rfl : c' = c := by
          simpa using hc'.symm
        subst ht
        intro x hx
        rcases List.mem_cons.mp hx with rfl | hx
        · simpa using hp
        · exact ih h₂ x hx
  · intro hall
    induction s with
    | nil => exact .starNil
    | cons c t ih =>
        have : RE.Matches (.star (.cls p)) ([c] ++ t) :=
          .starCons (.cls (hall c (by simp)))
            (ih (fun x hx => hall x (by simp [hx])))
        simpa using this

theorem RE.matches_plus_cls {p : Char → Bool} {s : List Char} :
    RE.Matches (RE.plus (.cls p)) s ↔ s ≠ [] ∧ ∀ c ∈ s, p c = true := by
  constructor
  · intro h
    obtain ⟨s₁, s₂, rfl, h₁, h₂⟩ := RE.matches_cat_iff.mp h
    obtain ⟨c, rfl, hp⟩ := RE.matches_cls_iff.mp h₁
    refine ⟨by simp, ?_⟩
    intro x hx
    rcases List.mem_append.mp hx with hx | hx
    · rcases List.mem_singleton.mp hx with rfl
      exact hp
    · exact RE.matches_star_cls.mp h₂ x hx
  · rintro ⟨hne, hall⟩
    cases s with
    | nil => exact absurd rfl hne
    | cons c t =>
        have : RE.Matches (.cat (.cls p) (.star (.cls p))) ([c] ++ t) :=
          .cat (.cls (hall c (by simp)))
            (RE.matches_star_cls.mpr (fun x hx => hall x (by simp [hx])))
        simpa [RE.plus] using this

theorem RE.matches_quoteOpt {s : List Char} :
    RE.Matches quoteOptRE s ↔ s = [] ∨ s = ['"'] := by
  constructor
  · intro h
    rcases RE.matches_alt_iff.mp h with h | h
    · exact .inl (RE.matches_eps_iff.mp h)
    · obtain ⟨c, rfl, hc⟩ := RE.matches_cls_iff.mp h
      right
      simp only [decide_eq_true_eq] at hc
      rw [hc]
  · rintro (rfl | rfl)
    · exact .altL .eps
    · exact .altR (.cls (by simp))

/-- Inversion of one attribute group of the pattern. -/
theorem attrGroup_inv {s : List Char} (h : RE.Matches attrGroupRE s) :
    ∃ (w : Char) (k : List Char) (w2 : Char) (q1 v q2 : List Char),
      s = w :: (k ++ w2 :: (q1 ++ v ++ q2 ++ [';'])) ∧
      isWS w = true ∧ NWtok k ∧ isWS w2 = true ∧
      (q1 = [] ∨ q1 = ['"']) ∧
      (v ≠ [] ∧ ∀ c ∈ v, isWS c = false ∧ c ≠ '"') ∧
      (q2 = [] ∨ q2 = ['"']) := by
  unfold attrGroupRE at h
  obtain ⟨sw, r1, hs, hw, hm1⟩ := RE.matches_cat_iff.mp h
  obtain ⟨w, hsw, hwp⟩ := RE.matches_cls_iff.mp hw
  obtain ⟨k, r2, hr1, hk, hm2⟩ := RE.matches_cat_iff.mp hm1
  obtain ⟨sw2, r3, hr2, hw2, hm3⟩ := RE.matches_cat_iff.mp hm2
  obtain ⟨w2, hsw2, hw2p⟩ := RE.matches_cls_iff.mp hw2
  obtain ⟨q1, r4, hr3, hq1, hm4⟩ := RE.matches_cat_iff.mp hm3
  obtain ⟨v, r5, hr4, hv, hm5⟩ := RE.matches_cat_iff.mp hm4
  obtain ⟨q2, r6, hr5, hq2, hm6⟩ := RE.matches_cat_iff.mp hm5
  obtain ⟨c, hr6, hc⟩ := RE.matches_cls_iff.mp hm6
  simp only [decide_eq_true_eq] at hc
  subst hc hsw hsw2 hr6 hr5 hr4 hr3 hr2 hr1 hs
  have hkk := RE.matches_plus_cls.mp hk
  have hvv := RE.matches_plus_cls.mp hv
  have hwW : isWS w = true := by
    rcases Bool.or_eq_true_iff.mp hwp with h' | h'
    · simp only [decide_eq_true_eq] at h'
      rw [h']; rfl
    · exact h'
  have hw2W : isWS w2 = true := by
    simpa [wsRE] using hw2p
  refine ⟨w, k, w2, q1, v, q2, by simp only [List.append_assoc, List.singleton_append,
    List.cons_append, List.nil_append], hwW, ?_, hw2W, ?_, ?_, ?_⟩
  · exact ⟨hkk.1, fun c hc => by simpa using hkk.2 c hc⟩
  · exact RE.matches_quoteOpt.mp hq1
  · refine ⟨hvv.1, fun c hc => ?_⟩
    have hcc := hvv.2 c hc
    simp only [valCharRE, Bool.not_eq_eq_eq_not, Bool.not_true, Bool.or_eq_false_iff,
      decide_eq_false_iff_not] at hcc
    exact ⟨hcc.1.1, hcc.2⟩
  · exact RE.matches_quoteOpt.mp hq2

/-- The attribute star of the pattern yields `AttrChunks`. -/
theorem attrChunks_of_star {l : List Char} (h : RE.Matches (.star attrGroupRE) l) :
    AttrChunks l := by
  generalize hr : RE.star attrGroupRE = rr at h
  induction h with
  | eps => exact absurd hr (by intro h; cases h)
  | cls _ => exact absurd hr (by intro h; cases h)
  | cat _ _ => exact absurd hr (by intro h; cases h)
  | altL _ => exact absurd hr (by intro h; cases h)
  | altR _ => exact absurd hr (by intro h; cases h)
  | starNil => exact .nil
  | starCons h₁ h₂ ih₁ ih₂ =>
      cases hr
      obtain ⟨w, k, w2, q1, v, q2, rfl, hw, hk, hw2, hq1, hv, hq2⟩ := attrGroup_inv h₁
      have hrest := ih₂ rfl
      have := AttrChunks.grp w k w2 q1 v q2 _ hw hk hw2 hq1 hv hq2 hrest
      simpa [List.append_assoc] using this

/-- Soundness half of the matcher on the gtf.h pattern: an accepted line
has the eight-column tab-separated structure. -/
theorem valid_line_decomp {l : List Char} (h : valid_line l = true) : RegexDecomp l := by
  have hm0 := RE.matchB_iff.mp h
  unfold valid_gtf_line_regex at hm0
  obtain ⟨c1, u1, hl0, h1, hm1⟩ := RE.matches_cat_iff.mp hm0
  obtain ⟨w1, u2, hl1, ht1, hm2⟩ := RE.matches_cat_iff.mp hm1
  obtain ⟨c2, u3, hl2, h2, hm3⟩ := RE.matches_cat_iff.mp hm2
  obtain ⟨w2, u4, hl3, ht2, hm4⟩ := RE.matches_cat_iff.mp hm3
  obtain ⟨c3, u5, hl4, h3, hm5⟩ := RE.matches_cat_iff.mp hm4
  obtain ⟨w3, u6, hl5, ht3, hm6⟩ := RE.matches_cat_iff.mp hm5
  obtain ⟨d4, u7, hl6, h4, hm7⟩ := RE.matches_cat_iff.mp hm6
  obtain ⟨w4, u8, hl7, ht4, hm8⟩ := RE.matches_cat_iff.mp hm7
  obtain ⟨d5, u9, hl8, h5, hm9⟩ := RE.matches_cat_iff.mp hm8
  obtain ⟨w5, u10, hl9, ht5, hm10⟩ := RE.matches_cat_iff.mp hm9
  obtain ⟨c6, u11, hl10, h6, hm11⟩ := RE.matches_cat_iff.mp hm10
  obtain ⟨w6, u12, hl11, ht6, hm12⟩ := RE.matches_cat_iff.mp hm11
  obtain ⟨c7, u13, hl12, h7, hm13⟩ := RE.matches_cat_iff.mp hm12
  obtain ⟨w7, u14, hl13, ht7, hm14⟩ := RE.matches_cat_iff.mp hm13
  obtain ⟨s8, u15, hl14, h8, hm15⟩ := RE.matches_cat_iff.mp hm14
  obtain ⟨d8, hl15, hd8⟩ := RE.matches_cls_iff.mp h8
  obtain ⟨a1, hw1, hta⟩ := RE.matches_cls_iff.mp ht1
  obtain ⟨a2, hw2, htb⟩ := RE.matches_cls_iff.mp ht2
  obtain ⟨a3, hw3, htc⟩ := RE.matches_cls_iff.mp ht3
  obtain ⟨a4, hw4, htd⟩ := RE.matches_cls_iff.mp ht4
  obtain ⟨a5, hw5, hte⟩ := RE.matches_cls_iff.mp ht5
  obtain ⟨a6, hw6, htf⟩ := RE.matches_cls_iff.mp ht6
  obtain ⟨a7, hw7, htg⟩ := RE.matches_cls_iff.mp ht7
  simp only [decide_eq_true_eq] at hta htb htc htd hte htf htg
  subst hta htb htc htd hte htf htg
  subst hw1 hw2 hw3 hw4 hw5 hw6 hw7 hl15
  subst hl14 hl13 hl12 hl11 hl10 hl9 hl8 hl7 hl6 hl5 hl4 hl3 hl2 hl1 hl0
  have hc1 := RE.matches_plus_cls.mp h1
  have hc2 := RE.matches_plus_cls.mp h2
  have hc3 := RE.matches_plus_cls.mp h3
  have hc4 := RE.matches_plus_cls.mp h4
  have hc5 := RE.matches_plus_cls.mp h5
  have hc6 := RE.matches_plus_cls.mp h6
  have hc7 := RE.matches_plus_cls.mp h7
  have hNW : ∀ {t : List Char}, (t ≠ [] ∧ ∀ c ∈ t, (!isWS c) = true) → NWtok t := by
    rintro t ⟨h1, h2⟩
    exact ⟨h1, fun c hc => by simpa using h2 c hc⟩
  refine ⟨c1, c2, c3, d4, d5, c6, c7, d8, u15, by simp only [List.append_assoc,
    List.singleton_append, List.cons_append, List.nil_append], hNW hc1, hNW hc2,
    hNW hc3, ⟨hc4.1, hc4.2⟩, ⟨hc5.1, hc5.2⟩, hNW hc6, hNW hc7, hd8, attrChunks_of_star hm15⟩

theorem dropWhile_append_all {p : Char → Bool} {a b : List Char}
    (h : ∀ c ∈ a, p c = true) : (a ++ b).dropWhile p = b.dropWhile p := by
  induction a with
  | nil => simp
  | cons c t ih =>
      simp only [List.cons_append, List.dropWhile_cons, h c (by simp), if_true]
      exact ih (fun x hx => h x (by simp [hx]))

theorem dropWhile_cons_false {p : Char → Bool} {c : Char} {t : List Char}
    (h : p c = false) : (c :: t).dropWhile p = c :: t := by
  simp [List.dropWhile_cons, h]

theorem takeWhile_append_stop {p : Char → Bool} {tok rest : List Char}
    (hall : ∀ c ∈ tok, p c = true) (hstop : headOK (fun c => !p c) rest = true) :
    (tok ++ rest).takeWhile p = tok := by
  induction tok with
  | nil =>
      cases rest with
      | nil => simp
      | cons d r =>
          simp only [headOK, Bool.not_eq_true'] at hstop
          simp [List.takeWhile_cons, hstop]
  | cons c t ih =>
      simp only [List.cons_append, List.takeWhile_cons, hall c (by simp), if_true]
      rw [ih (fun x hx => hall x (by simp [hx]))]

theorem dropWhile_append_stop {p : Char → Bool} {tok rest : List Char}
    (hall : ∀ c ∈ tok, p c = true) (hstop : headOK (fun c => !p c) rest = true) :
    (tok ++ rest).dropWhile p = rest := by
  rw [dropWhile_append_all hall]
  cases rest with
  | nil => simp
  | cons d r =>
      simp only [headOK, Bool.not_eq_true'] at hstop
      exact dropWhile_cons_false hstop

theorem dropWhile_length_le (p : Char → Bool) (l : List Char) :
    (l.dropWhile p).length ≤ l.length := by
  induction l with
  | nil => simp
  | cons c t ih =>
      simp only [List.dropWhile_cons]
      by_cases h : p c = true
      · simp only [h, if_true]
        exact le_trans ih (by simp)
      · simp [h]

theorem dropWhile_head_false (p : Char → Bool) (l : List Char) :
    headOK (fun c => !p c) (l.dropWhile p) = true := by
  induction l with
  | nil => simp [headOK]
  | cons c t ih =>
      simp only [List.dropWhile_cons]
      by_cases h : p c = true
      · simpa [h] using ih
      · simp only [Bool.not_eq_true] at h
        simp [h, headOK]

theorem isWS_false_of_isDigit {c : Char} (h : c.isDigit = true) : isWS c = false := by
  cases hws : isWS c with
  | false => rfl
  | true =>
      simp only [isWS, Bool.or_eq_true, decide_eq_true_eq] at hws
      rcases hws with ((((h1 | h1) | h1) | h1) | h1) | h1 <;>
        (subst h1; simp [Char.isDigit] at h)

theorem ne_sign_of_isDigit {c : Char} (h : c.isDigit = true) :
    c ≠ '-' ∧ c ≠ '+' := by
  constructor <;> (rintro rfl; simp [Char.isDigit] at h)

theorem wsTokensF_step_length {l : List Char} (h : l.dropWhile isWS ≠ []) :
    ((l.dropWhile isWS).dropWhile (fun c => !isWS c)).length < l.length := by
  have h1 : (l.dropWhile isWS).length ≤ l.length := dropWhile_length_le isWS l
  have hhd := dropWhile_head_false isWS l
  cases hcase : l.dropWhile isWS with
  | nil => exact absurd hcase h
  | cons c t =>
      rw [hcase] at h1 hhd
      simp only [headOK, Bool.not_eq_true'] at hhd
      have hstep : (c :: t).dropWhile (fun c => !isWS c) = t.dropWhile (fun c => !isWS c) := by
        simp [List.dropWhile_cons, hhd]
      rw [hstep]
      have h2 := dropWhile_length_le (fun c => !isWS c) t
      simp only [List.length_cons] at h1
      omega

theorem wsTokensF_congr : ∀ (f1 : Nat) (l : List Char) (f2 : Nat),
    l.length < f1 → l.length < f2 → wsTokensF f1 l = wsTokensF f2 l := by
  intro f1
  induction f1 with
  | zero => intro l f2 h _; omega
  | succ f ih =>
      intro l f2 h1 h2
      cases f2 with
      | zero => omega
      | succ g =>
          simp only [wsTokensF]
          by_cases hl : l.dropWhile isWS = []
          · simp [hl]
          · simp only [hl, if_neg hl]
            have hlen := wsTokensF_step_length hl
            rw [ih ((l.dropWhile isWS).dropWhile (fun c => !isWS c)) g
              (by omega) (by omega)]

theorem headOK_congr {p q : Char → Bool} (h : ∀ c, p c = q c) (l : List Char) :
    headOK p l = headOK q l := by
  cases l <;> simp [headOK, h]

theorem wsTokens_ws_cons {w : Char} {l : List Char} (h : isWS w = true) :
    wsTokens (w :: l) = wsTokens l := by
  show wsTokensF ((w :: l).length + 1) (w :: l) = wsTokensF (l.length + 1) l
  have e : wsTokensF (l.length + 1 + 1) (w :: l) = wsTokensF (l.length + 1 + 1) l := by
    simp only [wsTokensF, List.dropWhile_cons, h, if_true]
  rw [show (w :: l).length + 1 = l.length + 1 + 1 by simp]
  rw [e]
  exact wsTokensF_congr _ l _ (by omega) (by omega)

theorem wsTokens_tok {tok rest : List Char} (hne : tok ≠ [])
    (hall : ∀ c ∈ tok, isWS c = false) (hstop : headOK isWS rest = true) :
    wsTokens (tok ++ rest) = tok :: wsTokens rest := by
  have hd : (tok ++ rest).dropWhile isWS = tok ++ rest := by
    cases tok with
    | nil => exact absurd rfl hne
    | cons c t =>
        rw [List.cons_append]
        exact dropWhile_cons_false (hall c (by simp))
  have hall' : ∀ c ∈ tok, (!isWS c) = true := fun c hc => by simp [hall c hc]
  have hstop' : headOK (fun c => !(!isWS c)) rest = true := by
    rw [headOK_congr (q := isWS) (fun c => by simp) rest]
    exact hstop
  have htk : (tok ++ rest).takeWhile (fun c => !isWS c) = tok :=
    takeWhile_append_stop hall' hstop'
  have hdr : (tok ++ rest).dropWhile (fun c => !isWS c) = rest :=
    dropWhile_append_stop hall' hstop'
  show wsTokensF ((tok ++ rest).length + 1) (tok ++ rest) = tok :: wsTokensF (rest.length + 1) rest
  conv_lhs => rw [wsTokensF]
  simp only [hd, htk, hdr, if_neg (by simp [hne] : ¬ tok ++ rest = [])]
  have h1 : 1 ≤ tok.length := by
    cases tok with
    | nil => exact absurd rfl hne
    | cons a b => simp
  rw [wsTokensF_congr ((tok ++ rest).length) rest (rest.length + 1)
    (by simp only [List.length_append]; omega) (by omega)]

theorem attrChunks_headOK {rest : List Char} (h : AttrChunks rest) :
    headOK isWS rest = true := by
  cases h with
  | nil => rfl
  | grp w k w2 q1 v q2 rest hw _ _ _ _ _ _ => simpa [headOK] using hw

/-- The whitespace tokenization of a line with the accepted structure
starts with the eight fixed columns. -/
theorem wsTokens_decomp {c1 c2 c3 d4 d5 c6 c7 : List Char} {d8 : Char} {rest : List Char}
    (h1 : NWtok c1) (h2 : NWtok c2) (h3 : NWtok c3) (h4 : DGtok d4) (h5 : DGtok d5)
    (h6 : NWtok c6) (h7 : NWtok c7) (h8 : d8.isDigit = true) (hA : AttrChunks rest) :
    wsTokens (c1 ++ '\t' :: (c2 ++ '\t' :: (c3 ++ '\t' :: (d4 ++ '\t' :: (d5 ++ '\t' ::
      (c6 ++ '\t' :: (c7 ++ '\t' :: (d8 :: rest)))))))) =
      c1 :: c2 :: c3 :: d4 :: d5 :: c6 :: c7 :: [d8] :: wsTokens rest := by
  have hDG : ∀ {t : List Char}, DGtok t → ∀ c ∈ t, isWS c = false := by
    rintro t ⟨_, hd⟩ c hc
    exact isWS_false_of_isDigit (hd c hc)
  have htab : ∀ (x : List Char), headOK isWS ('\t' :: x) = true := by
    intro x; rfl
  rw [wsTokens_tok h1.1 h1.2 (htab _), wsTokens_ws_cons (by rfl)]
  rw [wsTokens_tok h2.1 h2.2 (htab _), wsTokens_ws_cons (by rfl)]
  rw [wsTokens_tok h3.1 h3.2 (htab _), wsTokens_ws_cons (by rfl)]
  rw [wsTokens_tok h4.1 (hDG h4) (htab _), wsTokens_ws_cons (by rfl)]
  rw [wsTokens_tok h5.1 (hDG h5) (htab _), wsTokens_ws_cons (by rfl)]
  rw [wsTokens_tok h6.1 h6.2 (htab _), wsTokens_ws_cons (by rfl)]
  rw [wsTokens_tok h7.1 h7.2 (htab _), wsTokens_ws_cons (by rfl)]
  rw [show d8 :: rest = [d8] ++ rest from rfl]
  rw [wsTokens_tok (by simp) (by simpa using isWS_false_of_isDigit h8)
    (attrChunks_headOK hA)]

theorem readStr_spec {ws tok rest : List Char} {old : List Char}
    (hws : ∀ c ∈ ws, isWS c = true) (hne : tok ≠ [])
    (hall : ∀ c ∈ tok, isWS c = false) (hstop : headOK isWS rest = true) :
    readStr ⟨ws ++ (tok ++ rest), false⟩ old = (⟨rest, false⟩, tok) := by
  unfold readStr
  have hd : (ws ++ (tok ++ rest)).dropWhile isWS = tok ++ rest := by
    rw [dropWhile_append_all hws]
    cases tok with
    | nil => exact absurd rfl hne
    | cons c t =>
        rw [List.cons_append]
        exact dropWhile_cons_false (hall c (by simp))
  have hall' : ∀ c ∈ tok, (!isWS c) = true := fun c hc => by simp [hall c hc]
  have hstop' : headOK (fun c => !(!isWS c)) rest = true := by
    rw [headOK_congr (q := isWS) (fun c => by simp) rest]; exact hstop
  simp only [hd, if_neg (by simp : ¬ (false = true)),
    if_neg (by simp [hne] : ¬ tok ++ rest = []),
    takeWhile_append_stop hall' hstop', dropWhile_append_stop hall' hstop']

theorem readNat64_spec {ws ds rest : List Char} {old : Nat}
    (hws : ∀ c ∈ ws, isWS c = true) (hds : DGtok ds)
    (hstop : headOK (fun c => !c.isDigit) rest = true)
    (hfit : natVal ds ≤ 18446744073709551615) :
    readNat64 ⟨ws ++ (ds ++ rest), false⟩ old = (⟨rest, false⟩, natVal ds) := by
  obtain ⟨hne, hdig⟩ := hds
  unfold readNat64
  have hd : (ws ++ (ds ++ rest)).dropWhile isWS = ds ++ rest := by
    rw [dropWhile_append_all hws]
    cases ds with
    | nil => exact absurd rfl hne
    | cons c t =>
        exact dropWhile_cons_false (isWS_false_of_isDigit (hdig c (by simp))) |>.trans (by simp)
  have hhd : ∀ (c : Char), (ds ++ rest).head? = some c → c.isDigit = true := by
    intro c hc
    cases ds with
    | nil => exact absurd rfl hne
    | cons a t =>
        simp only [List.cons_append, List.head?_cons, Option.some.injEq] at hc
        subst hc
        exact hdig a (by simp)
  have hneg : ((ds ++ rest).head? = some '-') = False := by
    simp only [eq_iff_iff, iff_false]
    intro hc
    have := hhd _ hc
    simp [Char.isDigit] at this
  have hpos : ((ds ++ rest).head? = some '+') = False := by
    simp only [eq_iff_iff, iff_false]
    intro hc
    have := hhd _ hc
    simp [Char.isDigit] at this
  have htk : (ds ++ rest).takeWhile Char.isDigit = ds := takeWhile_append_stop hdig hstop
  have hdr : (ds ++ rest).dropWhile Char.isDigit = rest := dropWhile_append_stop hdig hstop
  simp only [hd, if_neg (by simp : ¬ (false = true)),
    if_neg (by simp [hne] : ¬ ds ++ rest = []), hneg, hpos, decide_False, Bool.or_self,
    Bool.false_eq_true, if_false, htk, hdr, if_neg (by simp [hne] : ¬ ds = []),
    if_pos hfit, if_neg (by simp : ¬ False)]

theorem readChar_spec {ws : List Char} {c : Char} {t : List Char} {old : Char}
    (hws : ∀ x ∈ ws, isWS x = true) (hc : isWS c = false) :
    readChar ⟨ws ++ c :: t, false⟩ old = (⟨t, false⟩, c) := by
  unfold readChar
  have hd : (ws ++ c :: t).dropWhile isWS = c :: t := by
    rw [dropWhile_append_all hws]
    exact dropWhile_cons_false hc
  simp only [if_neg (by simp : ¬ (false = true)), hd]

theorem readShort_digit_spec {ws : List Char} {d : Char} {rest : List Char} {old : Int}
    (hws : ∀ c ∈ ws, isWS c = true) (hd : d.isDigit = true)
    (hstop : headOK (fun c => !c.isDigit) rest = true) :
    readShort ⟨ws ++ (d :: rest), false⟩ old = (⟨rest, false⟩, ((d.toNat - 48 : Nat) : Int)) := by
  unfold readShort
  have hdw : (ws ++ (d :: rest)).dropWhile isWS = d :: rest := by
    rw [dropWhile_append_all hws]
    exact dropWhile_cons_false (isWS_false_of_isDigit hd)
  have hneg : ((d :: rest).head? = some '-') = False := by
    simp only [List.head?_cons, Option.some.injEq, eq_iff_iff, iff_false]
    rintro rfl
    simp [Char.isDigit] at hd
  have hpos : ((d :: rest).head? = some '+') = False := by
    simp only [List.head?_cons, Option.some.injEq, eq_iff_iff, iff_false]
    rintro rfl
    simp [Char.isDigit] at hd
  have htk : (d :: rest).takeWhile Char.isDigit = [d] := by
    have : ([d] ++ rest).takeWhile Char.isDigit = [d] :=
      takeWhile_append_stop (by simpa using hd) hstop
    simpa using this
  have hdr : (d :: rest).dropWhile Char.isDigit = rest := by
    have : ([d] ++ rest).dropWhile Char.isDigit = rest :=
      dropWhile_append_stop (by simpa using hd) hstop
    simpa using this
  have hval9 : d.toNat - 48 ≤ 9 := by
    simp only [Char.isDigit, Bool.and_eq_true, decide_eq_true_eq] at hd
    have : d.toNat ≤ 57 := hd.2
    omega
  have hnv : natVal [d] = d.toNat - 48 := by
    simp [natVal]
  simp only [hdw, if_neg (by simp : ¬ (false = true)),
    if_neg (by simp : ¬ (d :: rest) = []), hneg, hpos, decide_False, Bool.or_self,
    Bool.false_eq_true, if_false, htk, hdr,
    if_neg (by simp : ¬ ([d] : List Char) = []), hnv]
  rw [if_neg (by omega), if_neg (by omega)]

theorem getlineSemi_spec {pre rest : List Char} {old : List Char}
    (hpre : ∀ c ∈ pre, c ≠ ';') :
    getlineSemi ⟨pre ++ ';' :: rest, false⟩ old = (⟨rest, false⟩, pre) := by
  unfold getlineSemi
  have hall : ∀ c ∈ pre, (decide ¬(c = ';')) = true := by
    intro c hc; simp [hpre c hc]
  have hstop : headOK (fun c => !(decide ¬(c = ';'))) (';' :: rest) = true := by
    simp [headOK]
  have htk : (pre ++ ';' :: rest).takeWhile (fun c => decide ¬(c = ';')) = pre :=
    takeWhile_append_stop hall hstop
  have hdr : (pre ++ ';' :: rest).dropWhile (fun c => decide ¬(c = ';')) = ';' :: rest :=
    dropWhile_append_stop hall hstop
  cases hp : pre with
  | nil =>
      subst hp
      simp only [List.nil_append] at htk hdr ⊢
      simp only [if_neg (by simp : ¬ (false = true))]
      simp [htk, hdr]
  | cons a t =>
      subst hp
      simp only [List.cons_append]
      simp only [if_neg (by simp : ¬ (false = true))]
      simp only [← List.cons_append, htk, hdr]
      simp

/-- Symbolic run of the eight fixed extractions on an accepted line whose
`start`/`end` columns fit in 64 bits: the record fields `start` and `end`
and the score token come from columns 4, 5 and 6. -/
theorem fixedPhase_spec {c1 c2 c3 d4 d5 c6 c7 : List Char} {d8 : Char} {rest : List Char}
    (rec : GTFSequence)
    (h1 : NWtok c1) (h2 : NWtok c2) (h3 : NWtok c3) (h4 : DGtok d4) (h5 : DGtok d5)
    (h6 : NWtok c6) (h7 : NWtok c7) (h8 : d8.isDigit = true) (hA : AttrChunks rest)
    (hf4 : natVal d4 ≤ 18446744073709551615) (hf5 : natVal d5 ≤ 18446744073709551615) :
    (fixedPhase rec (c1 ++ '\t' :: (c2 ++ '\t' :: (c3 ++ '\t' :: (d4 ++ '\t' :: (d5 ++ '\t' ::
      (c6 ++ '\t' :: (c7 ++ '\t' :: (d8 :: rest))))))))).2.1.start = natVal d4 ∧
    (fixedPhase rec (c1 ++ '\t' :: (c2 ++ '\t' :: (c3 ++ '\t' :: (d4 ++ '\t' :: (d5 ++ '\t' ::
      (c6 ++ '\t' :: (c7 ++ '\t' :: (d8 :: rest))))))))).2.1.end_ = natVal d5 ∧
    (fixedPhase rec (c1 ++ '\t' :: (c2 ++ '\t' :: (c3 ++ '\t' :: (d4 ++ '\t' :: (d5 ++ '\t' ::
      (c6 ++ '\t' :: (c7 ++ '\t' :: (d8 :: rest))))))))).2.2 = c6 := by
  have hDG : ∀ {t : List Char}, DGtok t → ∀ c ∈ t, isWS c = false := by
    rintro t ⟨_, hdg⟩ c hc
    exact isWS_false_of_isDigit (hdg c hc)
  have htabOK : ∀ (x : List Char), headOK isWS ('\t' :: x) = true := fun x => rfl
  have htabWS : ∀ c ∈ ['\t'], isWS c = true := by
    intro c hc
    simp only [List.mem_singleton] at hc
    subst hc; rfl
  have hdig4 : headOK (fun c => !c.isDigit) ('\t' :: (d5 ++ '\t' :: (c6 ++ '\t' ::
      (c7 ++ '\t' :: (d8 :: rest))))) = true := by rfl
  have hdig5 : headOK (fun c => !c.isDigit) ('\t' :: (c6 ++ '\t' ::
      (c7 ++ '\t' :: (d8 :: rest)))) = true := by rfl
  have e1 := @readStr_spec [] _ _ rec.seqname (by simp) h1.1 h1.2
    (htabOK (c2 ++ '\t' :: (c3 ++ '\t' :: (d4 ++ '\t' :: (d5 ++ '\t' ::
      (c6 ++ '\t' :: (c7 ++ '\t' :: (d8 :: rest))))))))
  have e2 := @readStr_spec ['\t'] _ _ rec.source htabWS h2.1 h2.2
    (htabOK (c3 ++ '\t' :: (d4 ++ '\t' :: (d5 ++ '\t' ::
      (c6 ++ '\t' :: (c7 ++ '\t' :: (d8 :: rest)))))))
  have e3 := @readStr_spec ['\t'] _ _ rec.feature htabWS h3.1 h3.2
    (htabOK (d4 ++ '\t' :: (d5 ++ '\t' :: (c6 ++ '\t' :: (c7 ++ '\t' :: (d8 :: rest))))))
  have e4 := @readNat64_spec ['\t'] _ _ rec.start htabWS h4 hdig4 hf4
  have e5 := @readNat64_spec ['\t'] _ _ rec.end_ htabWS h5 hdig5 hf5
  have e6 := @readStr_spec ['\t'] _ _ ([] : List Char) htabWS h6.1 h6.2
    (htabOK (c7 ++ '\t' :: (d8 :: rest)))
  simp only [List.nil_append, List.singleton_append] at e1 e2 e3 e4 e5 e6
  simp only [fixedPhase, e1, e2, e3, e4, e5, e6]
  exact ⟨trivial, trivial, trivial⟩

/-- When decoding produces a record, its fixed fields come from the fixed
extraction phase and the score from the `tmpscore == "."` branch. -/
theorem decodeLine_inv {rec : GTFSequence} {l : List Char} {r : GTFSequence}
    (h : decodeLine rec l = some r) :
    r.start = (fixedPhase rec l).2.1.start ∧
    r.end_ = (fixedPhase rec l).2.1.end_ ∧
    r.score = (if (fixedPhase rec l).2.2 = ['.'] then NO_SCORE
      else atofD (fixedPhase rec l).2.2) := by
  simp only [decodeLine] at h
  cases hA : attrLoop ((fixedPhase rec l).1.rem.length + 1) (fixedPhase rec l).1 [] [] [] with
  | none => rw [hA] at h; simp at h
  | some m =>
      rw [hA] at h
      simp only [Option.map_some', Option.some.injEq] at h
      rw [← h]
      exact ⟨rfl, rfl, rfl⟩

/-- C4 (amended): on a grammar-accepted line whose start and end columns
fit the 64-bit unsigned range, a decoded record's score follows the
source's branch exactly: the `NO_SCORE` sentinel when the raw score token
(column 6) is the literal `.`, and otherwise the `strtod` best-effort
parse of that token — a malformed token is coerced, never rejected.
Because the sentinel is the `double` `+infinity`, the score equals
`NO_SCORE` exactly when the token is `.` or its parse is `+infinity` (an
`inf`/`infinity` spelling or an overflowing magnitude): the sentinel is
not distinguishable from a parsed infinity. -/
theorem c4_score_token_semantics (rec : GTFSequence) (l : List Char) (r : GTFSequence)
    (hv : valid_line l = true)
    (hf4 : natVal (colTok l 3) ≤ 18446744073709551615)
    (hf5 : natVal (colTok l 4) ≤ 18446744073709551615)
    (hdec : decodeLine rec l = some r) :
    r.score = (if colTok l 5 = ['.'] then NO_SCORE else atofD (colTok l 5)) ∧
    (r.score = NO_SCORE ↔ (colTok l 5 = ['.'] ∨ atofD (colTok l 5) = Score.inf)) := by
  obtain ⟨c1, c2, c3, d4, d5, c6, c7, d8, rest, hl, h1, h2, h3, h4, h5, h6, h7, h8, hA⟩ :=
    valid_line_decomp hv
  subst hl
  have hws := wsTokens_decomp h1 h2 h3 h4 h5 h6 h7 h8 hA
  have hcol3 : colTok (c1 ++ '\t' :: (c2 ++ '\t' :: (c3 ++ '\t' :: (d4 ++ '\t' :: (d5 ++ '\t' ::
      (c6 ++ '\t' :: (c7 ++ '\t' :: (d8 :: rest)))))))) 3 = d4 := by
    simp [colTok, hws]
  have hcol4 : colTok (c1 ++ '\t' :: (c2 ++ '\t' :: (c3 ++ '\t' :: (d4 ++ '\t' :: (d5 ++ '\t' ::
      (c6 ++ '\t' :: (c7 ++ '\t' :: (d8 :: rest)))))))) 4 = d5 := by
    simp [colTok, hws]
  have hcol5 : colTok (c1 ++ '\t' :: (c2 ++ '\t' :: (c3 ++ '\t' :: (d4 ++ '\t' :: (d5 ++ '\t' ::
      (c6 ++ '\t' :: (c7 ++ '\t' :: (d8 :: rest)))))))) 5 = c6 := by
    simp [colTok, hws]
  rw [hcol3] at hf4
  rw [hcol4] at hf5
  obtain ⟨hst, hen, hsc⟩ := fixedPhase_spec rec h1 h2 h3 h4 h5 h6 h7 h8 hA hf4 hf5
  obtain ⟨_, _, hscore⟩ := decodeLine_inv hdec
  have hmain : r.score = (if c6 = ['.'] then NO_SCORE else atofD c6) := by
    rw [hscore, hsc]
  rw [hcol5]
  refine ⟨hmain, ?_⟩
  by_cases htok : c6 = ['.']
  · rw [if_pos htok] at hmain
    exact ⟨fun _ => Or.inl htok, fun _ => hmain⟩
  · rw [if_neg htok] at hmain
    constructor
    · intro hNS
      right
      rw [← hmain, hNS]
      rfl
    · rintro (hc | hinf)
      · exact absurd hc htok
      · rw [hmain, hinf]
        rfl

unseal Rat.add Rat.mul Rat.inv Rat.sub in
/-- C4 counterexample: on the grammar-accepted line
`a<TAB>b<TAB>c<TAB>18446744073709551616<TAB>2<TAB>.<TAB>+<TAB>0` the raw
score token is `.` yet the decoded score is `0.0`, not the sentinel: the
out-of-range start column fails the stream before the score is read. -/
theorem c4_counterexample :
    valid_line ("a\tb\tc\t18446744073709551616\t2\t.\t+\t0".toList) = true ∧
    colTok ("a\tb\tc\t18446744073709551616\t2\t.\t+\t0".toList) 5 = ['.'] ∧
    (decodeLine defaultSeq ("a\tb\tc\t18446744073709551616\t2\t.\t+\t0".toList)).map
      GTFSequence.score = some (Score.val 0) ∧
    Score.val 0 ≠ NO_SCORE := by
  refine ⟨by decide, by decide, by decide, by decide⟩

unseal Rat.add Rat.mul Rat.inv Rat.sub in
/-- C4 witness: concrete instantiation of `c4_score_token_semantics` on a
line whose score token is `inf`: the decoded score is the `NO_SCORE`
sentinel although the token is not `.`. -/
theorem c4_witness :
    valid_line ("a\tb\tc\t1\t2\tinf\t+\t0".toList) = true ∧
    colTok ("a\tb\tc\t1\t2\tinf\t+\t0".toList) 5 = "inf".toList ∧
    (decodeLine defaultSeq ("a\tb\tc\t1\t2\tinf\t+\t0".toList)).map
      GTFSequence.score = some NO_SCORE := by
  have hv : valid_line ("a\tb\tc\t1\t2\tinf\t+\t0".toList) = true := by decide
  have hdec : decodeLine defaultSeq ("a\tb\tc\t1\t2\tinf\t+\t0".toList) =
      some ⟨"a".toList, "b".toList, "c".toList, 1, 2, Score.inf, '+', 0, []⟩ := by decide
  have hs := c4_score_token_semantics defaultSeq _ _ hv (by decide) (by decide) hdec
  refine ⟨hv, by decide, ?_⟩
  rw [hdec, Option.map_some']
  exact congrArg some (hs.2.mpr (Or.inr (by decide)))

/-- C8 (amended): on a grammar-accepted line whose start column exceeds its
end column numerically, both values fitting the 64-bit unsigned range, a
decoded record stores the two coordinates exactly as written — neither the
grammar nor the decoder checks `start <= end`. -/
theorem c8_start_end_stored_as_given (rec : GTFSequence) (l : List Char) (r : GTFSequence)
    (hv : valid_line l = true)
    (hf4 : natVal (colTok l 3) ≤ 18446744073709551615)
    (hf5 : natVal (colTok l 4) ≤ 18446744073709551615)
    (hgt : natVal (colTok l 3) > natVal (colTok l 4))
    (hdec : decodeLine rec l = some r) :
    r.start = natVal (colTok l 3) ∧ r.end_ = natVal (colTok l 4) := by
  obtain ⟨c1, c2, c3, d4, d5, c6, c7, d8, rest, hl, h1, h2, h3, h4, h5, h6, h7, h8, hA⟩ :=
    valid_line_decomp hv
  subst hl
  have hws := wsTokens_decomp h1 h2 h3 h4 h5 h6 h7 h8 hA
  have hcol3 : colTok (c1 ++ '\t' :: (c2 ++ '\t' :: (c3 ++ '\t' :: (d4 ++ '\t' :: (d5 ++ '\t' ::
      (c6 ++ '\t' :: (c7 ++ '\t' :: (d8 :: rest)))))))) 3 = d4 := by
    simp [colTok, hws]
  have hcol4 : colTok (c1 ++ '\t' :: (c2 ++ '\t' :: (c3 ++ '\t' :: (d4 ++ '\t' :: (d5 ++ '\t' ::
      (c6 ++ '\t' :: (c7 ++ '\t' :: (d8 :: rest)))))))) 4 = d5 := by
    simp [colTok, hws]
  rw [hcol3] at hf4 ⊢
  rw [hcol4] at hf5 ⊢
  obtain ⟨hst, hen, _⟩ := fixedPhase_spec rec h1 h2 h3 h4 h5 h6 h7 h8 hA hf4 hf5
  obtain ⟨hrs, hre, _⟩ := decodeLine_inv hdec
  exact ⟨hrs.trans hst, hre.trans hen⟩

/-- C8 counterexample: the grammar-accepted line
`a<TAB>b<TAB>c<TAB>18446744073709551616<TAB>2<TAB>3.5<TAB>-<TAB>1` has
start column 2^64 greater than end column 2, yet the decoder stores
start = 2^64 - 1 (the C++11 out-of-range clamp), not the value as given. -/
theorem c8_counterexample :
    valid_line ("a\tb\tc\t18446744073709551616\t2\t3.5\t-\t1".toList) = true ∧
    natVal (colTok ("a\tb\tc\t18446744073709551616\t2\t3.5\t-\t1".toList) 3) >
      natVal (colTok ("a\tb\tc\t18446744073709551616\t2\t3.5\t-\t1".toList) 4) ∧
    (decodeLine defaultSeq ("a\tb\tc\t18446744073709551616\t2\t3.5\t-\t1".toList)).map
      GTFSequence.start = some 18446744073709551615 ∧
    (18446744073709551615 : Nat) ≠
      natVal (colTok ("a\tb\tc\t18446744073709551616\t2\t3.5\t-\t1".toList) 3) := by
  refine ⟨by decide, by decide, by decide, by decide⟩

unseal Rat.add Rat.mul Rat.inv Rat.sub in
/-- C8 witness: concrete instantiation of `c8_start_end_stored_as_given` on
the scenario-3 line with start = 50 greater than end = 10; decoding
succeeds and stores both as given. -/
theorem c8_witness :
    valid_line ("chr2\tsrcB\tgene\t50\t10\t3.5\t-\t1\tid x;".toList) = true ∧
    (decodeLine defaultSeq ("chr2\tsrcB\tgene\t50\t10\t3.5\t-\t1\tid x;".toList)).map
      (fun r => (r.start, r.end_)) = some (50, 10) := by
  have hv : valid_line ("chr2\tsrcB\tgene\t50\t10\t3.5\t-\t1\tid x;".toList) = true := by
    decide
  have hdec : decodeLine defaultSeq ("chr2\tsrcB\tgene\t50\t10\t3.5\t-\t1\tid x;".toList) =
      some ⟨"chr2".toList, "srcB".toList, "gene".toList, 50, 10, Score.val (7/2), '-', 1,
        [("id".toList, "x".toList)]⟩ := by
    decide
  have hse := c8_start_end_stored_as_given defaultSeq _ _ hv (by decide) (by decide)
    (by decide) hdec
  refine ⟨hv, ?_⟩
  rw [hdec, Option.map_some', hse.1, hse.2]
  decide

theorem specAttrGroups_of_chunks {rest : List Char} (h : AttrChunks rest) :
    SpecAttrGroups rest := by
  induction h with
  | nil => exact .nil
  | grp w k w2 q1 v q2 rest hw hk hw2 hq1 hv hq2 hrest ih =>
      have hvcol : SpecCol (q1 ++ v ++ q2) := by
        refine ⟨?_, ?_⟩
        · have := hv.1
          intro hq
          rcases List.append_eq_nil.mp (List.append_eq_nil.mp hq).1 with ⟨_, hv0⟩
          exact this hv0
        · intro c hc
          rcases List.mem_append.mp hc with hc | hc
          · rcases List.mem_append.mp hc with hc | hc
            · rcases hq1 with rfl | rfl
              · cases hc
              · rcases List.mem_singleton.mp hc with rfl
                rfl
            · exact (hv.2 c hc).1
          · rcases hq2 with rfl | rfl
            · cases hc
            · rcases List.mem_singleton.mp hc with rfl
              rfl
      have hs1 : SpecSep [w] := ⟨by simp, by intro c hc; rcases List.mem_singleton.mp hc with rfl; exact hw⟩
      have hs2 : SpecSep [w2] := ⟨by simp, by intro c hc; rcases List.mem_singleton.mp hc with rfl; exact hw2⟩
      have := SpecAttrGroups.grp [w] k [w2] (q1 ++ v ++ q2) rest hs1 hk hs2 hvcol ih
      simpa [List.append_assoc] using this

/-- C1: the gtf.h line validation accepts a line only if the whole line,
anchored at both ends, matches the claim's grammar: eight
whitespace/tab-separated non-whitespace columns with columns 4 and 5
digit-only, followed by zero or more `key value;` attribute groups and no
trailing text. -/
theorem c1_valid_line_matches_grammar (l : List Char) (hv : valid_line l = true) :
    SpecGrammar l := by
  obtain ⟨c1, c2, c3, d4, d5, c6, c7, d8, rest, hl, h1, h2, h3, h4, h5, h6, h7, h8, hA⟩ :=
    valid_line_decomp hv
  subst hl
  have htab : SpecSep ['\t'] := ⟨by simp, by intro c hc; rcases List.mem_singleton.mp hc with rfl; rfl⟩
  have hDGcol : ∀ {t : List Char}, DGtok t → SpecCol t := by
    rintro t ⟨hne, hd⟩
    exact ⟨hne, fun c hc => isWS_false_of_isDigit (hd c hc)⟩
  refine ⟨c1, ['\t'], c2, ['\t'], c3, ['\t'], d4, ['\t'], d5, ['\t'], c6, ['\t'],
    c7, ['\t'], [d8], rest, ?_, h1, htab, h2, htab, h3, htab, hDGcol h4, h4, htab,
    hDGcol h5, h5, htab, h6, htab, h7, htab,
    ⟨by simp, by intro c hc; rcases List.mem_singleton.mp hc with rfl; exact isWS_false_of_isDigit h8⟩,
    specAttrGroups_of_chunks hA⟩
  simp [List.append_assoc]

/-- C1 witness: the scenario-1 line is accepted, hence has the claim's
grammar shape. -/
theorem c1_witness :
    SpecGrammar ("chr1\tEnsembl\texon\t100\t200\t.\t+\t0\tgene_id \"ABC\"; note test;".toList) :=
  c1_valid_line_matches_grammar _ (by decide)

theorem dropWhile_all_nil {p : Char → Bool} {l : List Char}
    (h : ∀ c ∈ l, p c = true) : l.dropWhile p = [] :=
  List.dropWhile_eq_nil_iff.mpr h

theorem trim_all_ws {l : List Char} (h : ∀ c ∈ l, isTrimWS c = true) : trim l = [] := by
  unfold trim
  by_cases hl : l = []
  · simp [hl]
  · rw [if_neg hl]
    rw [dropWhile_all_nil (l := l.reverse) (by intro c hc; exact h c (List.mem_reverse.mp hc))]
    rfl

theorem trim_eq_nil_all {l : List Char} (h : trim l = []) :
    ∀ c ∈ l, isTrimWS c = true := by
  unfold trim at h
  by_cases hl : l = []
  · subst hl; intro c hc; cases hc
  · rw [if_neg hl] at h
    intro c hc
    have hrev : c ∈ l.reverse := List.mem_reverse.mpr hc
    rw [← List.takeWhile_append_dropWhile (p := isTrimWS) (l := l.reverse)] at hrev
    rcases List.mem_append.mp hrev with hm | hm
    · exact List.mem_takeWhile_imp hm
    · have hm' : c ∈ (l.reverse.dropWhile isTrimWS).reverse := List.mem_reverse.mpr hm
      rw [← List.takeWhile_append_dropWhile (p := isTrimWS)
        (l := (l.reverse.dropWhile isTrimWS).reverse)] at hm'
      rcases List.mem_append.mp hm' with hm'' | hm''
      · exact List.mem_takeWhile_imp hm''
      · rw [h] at hm''
        cases hm''

theorem take_append_self (a b : List Char) : (a ++ b).take a.length = a := by
  induction a with
  | nil => simp
  | cons c t ih => simp [ih]

theorem valid_line_min_length {l : List Char} (h : valid_line l = true) :
    15 ≤ l.length := by
  obtain ⟨c1, c2, c3, d4, d5, c6, c7, d8, rest, hl, h1, h2, h3, h4, h5, h6, h7, h8, hA⟩ :=
    valid_line_decomp h
  subst hl
  have l1 := List.length_pos.mpr h1.1
  have l2 := List.length_pos.mpr h2.1
  have l3 := List.length_pos.mpr h3.1
  have l4 := List.length_pos.mpr h4.1
  have l5 := List.length_pos.mpr h5.1
  have l6 := List.length_pos.mpr h6.1
  have l7 := List.length_pos.mpr h7.1
  simp only [List.length_append, List.length_cons]
  omega

theorem valid_line_head_nonws {l : List Char} (h : valid_line l = true) :
    ∃ c t, l = c :: t ∧ isWS c = false := by
  obtain ⟨c1, c2, c3, d4, d5, c6, c7, d8, rest, hl, h1, h2, h3, h4, h5, h6, h7, h8, hA⟩ :=
    valid_line_decomp h
  subst hl
  cases hc : c1 with
  | nil => exact absurd hc h1.1
  | cons a t1 =>
      subst hc
      exact ⟨a, t1 ++ '\t' :: (c2 ++ '\t' :: (c3 ++ '\t' :: (d4 ++ '\t' :: (d5 ++ '\t' ::
        (c6 ++ '\t' :: (c7 ++ '\t' :: (d8 :: rest))))))), by simp, h1.2 a (by simp)⟩

theorem trim_length_le (l : List Char) : (trim l).length ≤ l.length := by
  unfold trim
  by_cases hl : l = []
  · simp [hl]
  · rw [if_neg hl]
    calc ((l.reverse.dropWhile isTrimWS).reverse.dropWhile isTrimWS).length
        ≤ (l.reverse.dropWhile isTrimWS).reverse.length := dropWhile_length_le _ _
      _ = (l.reverse.dropWhile isTrimWS).length := by simp
      _ ≤ l.reverse.length := dropWhile_length_le _ _
      _ = l.length := by simp

/-- C3: a line consisting only of a comment, or empty after whitespace
trimming, is always rejected after sanitization, so the read loop skips it
and continues with the next line: zero records, no error. -/
theorem c3_comment_blank_skipped (rec : GTFSequence) (l : List Char)
    (rest : List (List Char)) (h : CommentOnly l ∨ trim l = []) :
    next_sequence rec (l :: rest) = next_sequence rec rest := by
  have hval : valid_line (sanitize_line l) = false := by
    rw [← Bool.not_eq_true]
    intro hvb
    rcases h with ⟨pre, post, hl, hpre⟩ | htr
    · subst hl
      have hlen0 : (pre ++ '#' :: post).length = pre.length + post.length + 1 := by
        simp only [List.length_append, List.length_cons]
        omega
      have hne : pre ++ '#' :: post ≠ [] := by simp
      have hhash : ((pre ++ '#' :: post).takeWhile (fun c => c ≠ '#')).length = pre.length := by
        rw [takeWhile_append_stop (p := fun c => decide ¬(c = '#'))
          (by
            intro c hc
            have := hpre c hc
            simp only [isTrimWS, Bool.or_eq_true, decide_eq_true_eq] at this
            rcases this with rfl | rfl <;> decide)
          (by simp [headOK])]
      have hlt : pre.length < (pre ++ '#' :: post).length := by
        rw [hlen0]; omega
      have hsan : sanitize_line (pre ++ '#' :: post) =
          trim (pre ++ ((pre ++ '#' :: post).drop
            (pre.length + ((pre ++ '#' :: post).length - 1)))) := by
        unfold sanitize_line
        rw [if_neg hne]
        simp only [hhash, hlt, if_true, strErase, take_append_self]
      set d := (pre ++ '#' :: post).drop (pre.length + ((pre ++ '#' :: post).length - 1)) with hd
      have hdlen : d.length ≤ 1 := by
        rw [hd, List.length_drop, hlen0]
        omega
      have hshort : (trim (pre ++ d)).length ≤ 1 := by
        cases hdc : d with
        | nil =>
            rw [List.append_nil]
            rw [trim_all_ws hpre]
            simp
        | cons c0 t0 =>
            have ht0 : t0 = [] := by
              rw [hdc] at hdlen
              simp only [List.length_cons] at hdlen
              cases t0 with
              | nil => rfl
              | cons a b => simp at hdlen
            subst ht0
            by_cases hcw : isTrimWS c0 = true
            · have : trim (pre ++ [c0]) = [] := by
                apply trim_all_ws
                intro c hc
                rcases List.mem_append.mp hc with hc | hc
                · exact hpre c hc
                · rcases List.mem_singleton.mp hc with rfl
                  exact hcw
              rw [this]; simp
            · have hne2 : pre ++ [c0] ≠ [] := by simp
              unfold trim
              rw [if_neg hne2]
              have hrev : (pre ++ [c0]).reverse = c0 :: pre.reverse := by simp
              rw [hrev]
              rw [dropWhile_cons_false (by simpa using hcw)]
              have : (c0 :: pre.reverse).reverse = pre ++ [c0] := by simp
              rw [this]
              rw [dropWhile_append_all hpre]
              calc (List.dropWhile isTrimWS [c0]).length ≤ [c0].length :=
                    dropWhile_length_le _ _
                _ = 1 := by simp
      rw [hsan] at hvb
      have := valid_line_min_length hvb
      omega
    · have hallws := trim_eq_nil_all htr
      have hsan : sanitize_line l = [] := by
        unfold sanitize_line
        by_cases hl0 : l = []
        · simp [hl0, htr]
        · rw [if_neg hl0]
          have hhash : (l.takeWhile (fun c => c ≠ '#')).length = l.length := by
            have : (l ++ []).takeWhile (fun c => decide ¬(c = '#')) = l :=
              takeWhile_append_stop
                (by
                  intro c hc
                  have := hallws c hc
                  simp only [isTrimWS, Bool.or_eq_true, decide_eq_true_eq] at this
                  rcases this with rfl | rfl <;> decide)
                (by simp [headOK])
            simp only [List.append_nil] at this
            rw [this]
          rw [hhash]
          simp only [lt_self_iff_false, if_false]
          exact htr
      rw [hsan] at hvb
      have := valid_line_min_length hvb
      simp at this
  simp only [next_sequence, hval, Bool.false_eq_true, if_false]

/-- C3 witness: the scenario-2 comment line is skipped by the read loop. -/
theorem c3_witness :
    CommentOnly ("# this is a comment".toList) ∧
    next_sequence defaultSeq ["# this is a comment".toList] = none := by
  have hco : CommentOnly ("# this is a comment".toList) :=
    ⟨[], " this is a comment".toList, rfl, by intro c hc; cases hc⟩
  refine ⟨hco, ?_⟩
  rw [c3_comment_blank_skipped defaultSeq _ [] (Or.inl hco)]
  rfl

/-- C2 (code bug): the gtf.h sanitizer erases `line.size() - 1` characters
starting at the `'#'` instead of erasing to the end, so a line whose first
character is `'#'` keeps its final character: `"#abc"` sanitizes to `"c"`,
not `""` as the claim (and the draft variant, which erases to the end)
prescribes. -/
theorem c2_sanitize_line_divergence :
    sanitize_line ("#abc".toList) = "c".toList ∧
    sanitize_line_p0 ("#abc".toList) = [] ∧
    sanitize_line ("x # y".toList) = "x".toList ∧
    sanitize_line ("  # note".toList) = [] := by
  refine ⟨by decide, by decide, by decide, by decide⟩

/-- C5 (code bug): quote stripping behaves as claimed on wrapped, unquoted
and half-quoted values, but on a value that trims to a single `'"'` the
trailing-quote check reads `value[size_t(-1)]` of an empty string
(undefined behavior, modelled as `none`) instead of storing the empty
value. -/
theorem c5_attr_value_quote_stripping :
    sanitize_attr_value (" \"ABC\" ".toList) = some ("ABC".toList) ∧
    sanitize_attr_value ("ABC".toList) = some ("ABC".toList) ∧
    sanitize_attr_value ("\"ABC".toList) = some ("ABC".toList) ∧
    sanitize_attr_value ("ABC\"".toList) = some ("ABC".toList) ∧
    sanitize_attr_value (" \"".toList) = none := by
  refine ⟨by decide, by decide, by decide, by decide, by decide⟩

/-- C10 (code bug): the trailing-quote check of `sanitize_attr_value` is
reached with an empty string on an input that trims to `"` and then
indexes position `size() - 1 = size_t(-1)`, an out-of-bounds read; the
line shown is grammar-accepted, so the read is reachable through the
normal decode path. -/
theorem c10_out_of_bounds_read :
    (sanitize_attr_value ("\"".toList)).isNone = true ∧
    valid_line ("a\tb\tc\t50\t10\t3\t+\t0\tk \";x;".toList) = true ∧
    decodeLine defaultSeq ("a\tb\tc\t50\t10\t3\t+\t0\tk \";x;".toList) = none := by
  refine ⟨by decide, by decide, by decide⟩

theorem startsWithSeg_self_append (n s : List Char) :
    startsWithSeg n (n ++ s) = true := by
  induction n with
  | nil => rfl
  | cons a t ih => simp [startsWithSeg, ih]

theorem containsSeg_of_startsWith (n hay : List Char)
    (h : startsWithSeg n hay = true) : containsSeg n hay = true := by
  cases hay with
  | nil =>
      cases n with
      | nil => rfl
      | cons a t => simp [startsWithSeg] at h
  | cons c t => simp [containsSeg, h]

theorem containsSeg_append (n p s : List Char) :
    containsSeg n (p ++ n ++ s) = true := by
  induction p with
  | nil =>
      simp only [List.nil_append]
      exact containsSeg_of_startsWith n (n ++ s) (startsWithSeg_self_append n s)
  | cons a t ih =>
      simp only [List.cons_append, containsSeg]
      rw [show (t.append n).append s = t ++ n ++ s from rfl, ih]
      simp

/-- C7 counterexample: for the failing path `badfile.gtf` (the path used
by the repository's test), the error thrown by the gtf.h constructor is
the fixed message `Error opening GTF file`, which does not contain the
path — the claim's "carries the failing path" fails on the primary
header. -/
theorem c7_counterexample :
    GTFFile_construct ("badfile.gtf".toList) false =
      Except.error ("Error opening GTF file".toList) ∧
    containsSeg ("badfile.gtf".toList) ("Error opening GTF file".toList) = false := by
  refine ⟨rfl, by decide⟩

/-- C7 (amended): an unopenable path makes construction fail immediately
with the distinguishable fixed message `Error opening GTF file`; only the
draft `load()` variant appends the failing path (and an exclamation mark)
to the message. -/
theorem c7_open_error (fn : List Char) :
    GTFFile_construct fn false = Except.error ("Error opening GTF file".toList) ∧
    GTFFile_load_p0 fn false =
      Except.error ("Error opening GTF file ".toList ++ fn ++ "!".toList) ∧
    containsSeg fn ("Error opening GTF file ".toList ++ fn ++ "!".toList) = true :=
  ⟨rfl, rfl, containsSeg_append fn ("Error opening GTF file ".toList) ("!".toList)⟩

theorem attrLoop_eq_events : ∀ (fuel : Nat) (s : SS) (tk tv : List Char)
    (m : List (List Char × List Char)),
    attrLoop fuel s tk tv m =
      (attrEvents fuel s tk tv).map
        (fun evs => evs.foldl (fun acc e => mapInsert acc e.1 e.2) m) := by
  intro fuel
  induction fuel with
  | zero => intro s tk tv m; rfl
  | succ f ih =>
      intro s tk tv m
      simp only [attrLoop, attrEvents]
      by_cases hf : (readStr s tk).1.fail = true
      · simp [hf]
      · simp only [hf, Bool.false_eq_true, if_false]
        cases hs : sanitize_attr_value (getlineSemi (readStr s tk).1 tv).2 with
        | none => simp
        | some v2 =>
            simp only [Option.map_map]
            rw [ih]
            cases attrEvents f (getlineSemi (readStr s tk).1 tv).1 (readStr s tk).2 v2 with
            | none => rfl
            | some evs => simp [Function.comp, List.foldl_cons]

theorem lookupA_mapInsert (m : List (List Char × List Char)) (k v k' : List Char) :
    lookupA (mapInsert m k v) k' = if k' = k then some v else lookupA m k' := by
  induction m with
  | nil =>
      simp only [mapInsert, lookupA]
      by_cases h : k = k'
      · subst h; simp
      · rw [if_neg h, if_neg (fun hc => h hc.symm)]
  | cons e t ih =>
      obtain ⟨a, b⟩ := e
      simp only [mapInsert]
      by_cases hak : a = k
      · subst hak
        simp only [if_true]
        by_cases hk' : k' = a
        · subst hk'
          simp [lookupA]
        · simp only [lookupA, if_neg (fun hc : a = k' => hk' hc.symm), if_neg hk']
      · rw [if_neg hak]
        simp only [lookupA, ih]
        by_cases hak' : a = k'
        · subst hak'
          rw [if_pos rfl, if_neg (fun hc : a = k => hak hc), if_pos rfl]
        · rw [if_neg hak', if_neg hak']

theorem mem_keys_mapInsert {m : List (List Char × List Char)} {k v x : List Char}
    (h : x ∈ (mapInsert m k v).map Prod.fst) : x ∈ m.map Prod.fst ∨ x = k := by
  induction m with
  | nil =>
      simp only [mapInsert, List.map_cons, List.map_nil, List.mem_singleton] at h
      exact .inr h
  | cons e t ih =>
      obtain ⟨a, b⟩ := e
      simp only [mapInsert] at h
      by_cases hak : a = k
      · rw [if_pos hak] at h
        simp only [List.map_cons, List.mem_cons] at h
        rcases h with rfl | h
        · exact .inr rfl
        · exact .inl (by rw [List.map_cons]; exact List.mem_cons_of_mem _ h)
      · rw [if_neg hak] at h
        simp only [List.map_cons, List.mem_cons] at h
        rcases h with rfl | h
        · exact .inl (by rw [List.map_cons]; exact List.mem_cons_self _ _)
        · rcases ih h with h' | h'
          · exact .inl (by rw [List.map_cons]; exact List.mem_cons_of_mem _ h')
          · exact .inr h'

theorem mapInsert_keysNodup {m : List (List Char × List Char)} {k v : List Char}
    (h : KeysNodup m) : KeysNodup (mapInsert m k v) := by
  induction m with
  | nil => simp [mapInsert, KeysNodup]
  | cons e t ih =>
      obtain ⟨a, b⟩ := e
      simp only [KeysNodup, List.map_cons, List.nodup_cons] at h
      obtain ⟨ha, ht⟩ := h
      simp only [mapInsert]
      by_cases hak : a = k
      · subst hak
        rw [if_pos rfl]
        simp only [KeysNodup, List.map_cons, List.nodup_cons]
        exact ⟨ha, ht⟩
      · rw [if_neg hak]
        simp only [KeysNodup, List.map_cons, List.nodup_cons]
        refine ⟨?_, ih ht⟩
        intro hmem
        rcases mem_keys_mapInsert hmem with h' | h'
        · exact ha h'
        · exact hak h'

theorem foldl_ins_keysNodup (evs : List (List Char × List Char)) :
    ∀ (m0 : List (List Char × List Char)), KeysNodup m0 →
      KeysNodup (evs.foldl (fun acc e => mapInsert acc e.1 e.2) m0) := by
  induction evs with
  | nil => intro m0 h; exact h
  | cons e t ih =>
      intro m0 h
      simp only [List.foldl_cons]
      exact ih _ (mapInsert_keysNodup h)

theorem countKey_le_one {m : List (List Char × List Char)} {k : List Char}
    (h : KeysNodup m) : (m.filter (fun e => e.1 = k)).length ≤ 1 := by
  induction m with
  | nil => simp
  | cons e t ih =>
      obtain ⟨a, b⟩ := e
      simp only [KeysNodup, List.map_cons, List.nodup_cons] at h
      obtain ⟨ha, ht⟩ := h
      by_cases hak : a = k
      · subst hak
        have hft : t.filter (fun e => e.1 = a) = [] := by
          refine List.filter_eq_nil_iff.mpr ?_
          intro e he
          simp only [decide_eq_true_eq]
          intro hek
          exact ha (by rw [← hek]; exact List.mem_map_of_mem Prod.fst he)
        simp [List.filter_cons, hft]
      · simp only [List.filter_cons, decide_eq_true_eq]
        rw [if_neg hak]
        exact ih ht

theorem countKey_pos_of_lookupA {m : List (List Char × List Char)} {k v : List Char}
    (h : lookupA m k = some v) : 1 ≤ (m.filter (fun e => e.1 = k)).length := by
  induction m with
  | nil => simp [lookupA] at h
  | cons e t ih =>
      obtain ⟨a, b⟩ := e
      simp only [lookupA] at h
      by_cases hak : a = k
      · simp [List.filter_cons, hak]
      · rw [if_neg hak] at h
        simp only [List.filter_cons, decide_eq_true_eq]
        rw [if_neg hak]
        exact ih h

theorem lookupA_foldl_ins (k : List Char) (evs : List (List Char × List Char)) :
    ∀ (m0 : List (List Char × List Char)),
    lookupA (evs.foldl (fun acc e => mapInsert acc e.1 e.2) m0) k =
      (match (evs.filter (fun e => e.1 = k)).getLast? with
       | some e => some e.2
       | none => lookupA m0 k) := by
  induction evs using List.reverseRecOn with
  | nil => intro m0; simp
  | append_singleton evs e ih =>
      intro m0
      rw [List.foldl_append]
      simp only [List.foldl_cons, List.foldl_nil]
      rw [lookupA_mapInsert, List.filter_append]
      by_cases hek : e.1 = k
      · have hf1 : [e].filter (fun e => e.1 = k) = [e] := by simp [hek]
        rw [hf1, List.getLast?_concat]
        rw [if_pos hek.symm]
      · have hf1 : [e].filter (fun e => e.1 = k) = [] := by simp [hek]
        rw [hf1, List.append_nil]
        rw [if_neg (fun hc => hek hc.symm)]
        exact ih m0

/-- C6: when the attribute loop of a decoded line assigns the same key
more than once, the record's attribute map holds exactly one entry for
that key, whose value is the sanitized value of the last occurrence —
`std::map` overwrite semantics, not an error. -/
theorem c6_duplicate_keys_last_wins (rec : GTFSequence) (l : List Char) (r : GTFSequence)
    (k : List Char) (evs : List (List Char × List Char))
    (hv : valid_line l = true)
    (hdec : decodeLine rec l = some r)
    (hevs : lineAttrEvents rec l = some evs)
    (hdup : 2 ≤ (evs.filter (fun e => e.1 = k)).length) :
    (r.attributes.filter (fun e => e.1 = k)).length = 1 ∧
    lookupA r.attributes k =
      ((evs.filter (fun e => e.1 = k)).getLast?).map Prod.snd := by
  simp only [decodeLine] at hdec
  rw [attrLoop_eq_events] at hdec
  simp only [lineAttrEvents] at hevs
  rw [hevs] at hdec
  simp only [Option.map_some', Option.some.injEq] at hdec
  have hattr : r.attributes = evs.foldl (fun acc e => mapInsert acc e.1 e.2) [] := by
    rw [← hdec]
  have hnodup : KeysNodup (evs.foldl (fun acc e => mapInsert acc e.1 e.2) []) :=
    foldl_ins_keysNodup evs [] (by simp [KeysNodup])
  have hlast : ∃ e, (evs.filter (fun e => e.1 = k)).getLast? = some e := by
    cases hgl : (evs.filter (fun e => e.1 = k)).getLast? with
    | none =>
        have := List.getLast?_eq_none_iff.mp hgl
        rw [this] at hdup
        simp at hdup
    | some e => exact ⟨e, rfl⟩
  obtain ⟨e, hgl⟩ := hlast
  have hlook : lookupA r.attributes k = some e.2 := by
    rw [hattr, lookupA_foldl_ins, hgl]
  constructor
  · rw [hattr]
    have hle := countKey_le_one (k := k) hnodup
    have hge := countKey_pos_of_lookupA
      (m := evs.foldl (fun acc e => mapInsert acc e.1 e.2) []) (k := k) (v := e.2)
      (by rw [← hattr]; exact hlook)
    omega
  · rw [hlook, hgl]
    rfl

unseal Rat.add Rat.mul Rat.inv Rat.sub in
/-- C6 witness: on a line carrying `k v; k w;` the decoded map holds the
single entry `k -> w`, the sanitized value of the last occurrence. -/
theorem c6_witness :
    valid_line ("a\tb\tc\t1\t2\t3\t+\t0\tk v; k w;".toList) = true ∧
    lineAttrEvents defaultSeq ("a\tb\tc\t1\t2\t3\t+\t0\tk v; k w;".toList) =
      some [("k".toList, "v".toList), ("k".toList, "w".toList)] ∧
    (decodeLine defaultSeq ("a\tb\tc\t1\t2\t3\t+\t0\tk v; k w;".toList)).map
      (fun r => (lookupA r.attributes ("k".toList),
        (r.attributes.filter (fun e => e.1 = "k".toList)).length)) =
      some (some ("w".toList), 1) := by
  have hv : valid_line ("a\tb\tc\t1\t2\t3\t+\t0\tk v; k w;".toList) = true := by decide
  have hevs : lineAttrEvents defaultSeq ("a\tb\tc\t1\t2\t3\t+\t0\tk v; k w;".toList) =
      some [("k".toList, "v".toList), ("k".toList, "w".toList)] := by decide
  have hdec : decodeLine defaultSeq ("a\tb\tc\t1\t2\t3\t+\t0\tk v; k w;".toList) =
      some ⟨"a".toList, "b".toList, "c".toList, 1, 2, Score.val 3, '+', 0,
        [("k".toList, "w".toList)]⟩ := by decide
  have hmain := c6_duplicate_keys_last_wins defaultSeq _ _ ("k".toList) _ hv hdec hevs
    (by decide)
  refine ⟨hv, hevs, ?_⟩
  rw [hdec, Option.map_some']
  rw [show (⟨"a".toList, "b".toList, "c".toList, 1, 2, Score.val 3, '+', 0,
      [("k".toList, "w".toList)]⟩ : GTFSequence).attributes =
    [("k".toList, "w".toList)] from rfl] at hmain ⊢
  rw [hmain.2, hmain.1]
  decide

unseal Rat.add Rat.mul Rat.inv Rat.sub in
/-- C9 counterexample: the line
`a<TAB>b<TAB>c<TAB>1<TAB>2<TAB>3<TAB>+53<TAB>7<TAB>k v;` matches the
grammar, but its decode reads strand `+` and frame `53` out of the
two-character column 7, swallows column 8 as an attribute key and stores
the value `k v` (with a space).  Any serialization of that record writes
frame `53` as a two-digit column 8 and the value with its space, which
the grammar rejects, so the second decode yields no record at all. -/
theorem c9_counterexample :
    valid_line ("a\tb\tc\t1\t2\t3\t+53\t7\tk v;".toList) = true ∧
    (decodeLine defaultSeq ("a\tb\tc\t1\t2\t3\t+53\t7\tk v;".toList)).map
      (fun r => (r.frame, valid_line (serialize r))) = some (53, false) := by
  refine ⟨by decide, by decide⟩

theorem digitChar_isDigit (n : Nat) : (digitChar n).isDigit = true := by
  rcases n with _|_|_|_|_|_|_|_|_|_|n <;> rfl

theorem digitChar_toNat {n : Nat} (h : n ≤ 9) : (digitChar n).toNat = 48 + n := by
  rcases n with _|_|_|_|_|_|_|_|_|_|n
  · rfl
  · rfl
  · rfl
  · rfl
  · rfl
  · rfl
  · rfl
  · rfl
  · rfl
  · rfl
  · omega

theorem natDigitsF_congr : ∀ (f1 : Nat) (n : Nat) (f2 : Nat),
    n < f1 → n < f2 → natDigitsF f1 n = natDigitsF f2 n := by
  intro f1
  induction f1 with
  | zero => intro n f2 h _; omega
  | succ f ih =>
      intro n f2 h1 h2
      cases f2 with
      | zero => omega
      | succ g =>
          simp only [natDigitsF]
          by_cases hn : n < 10
          · simp [hn]
          · rw [if_neg hn, if_neg hn]
            have hd : n / 10 < n := Nat.div_lt_self (by omega) (by omega)
            rw [ih (n / 10) g (by omega) (by omega)]

theorem natDigits_lt10 {n : Nat} (h : n < 10) : natDigits n = [digitChar n] := by
  unfold natDigits natDigitsF
  simp [h]

theorem natDigits_step {n : Nat} (h : ¬ n < 10) :
    natDigits n = natDigits (n / 10) ++ [digitChar (n % 10)] := by
  show natDigitsF (n + 1) n = natDigitsF (n / 10 + 1) (n / 10) ++ [digitChar (n % 10)]
  conv_lhs => rw [natDigitsF]
  rw [if_neg h]
  have hd : n / 10 < n := Nat.div_lt_self (by omega) (by omega)
  rw [natDigitsF_congr n (n / 10) (n / 10 + 1) (by omega) (by omega)]

theorem natDigits_ne_nil (n : Nat) : natDigits n ≠ [] := by
  by_cases h : n < 10
  · rw [natDigits_lt10 h]; simp
  · rw [natDigits_step h]; simp

theorem natDigits_all_digit (n : Nat) : ∀ c ∈ natDigits n, c.isDigit = true := by
  induction n using Nat.strong_induction_on with
  | _ n ih =>
      by_cases h : n < 10
      · rw [natDigits_lt10 h]
        intro c hc
        rcases List.mem_singleton.mp hc with rfl
        exact digitChar_isDigit n
      · rw [natDigits_step h]
        intro c hc
        rcases List.mem_append.mp hc with hc | hc
        · exact ih (n / 10) (Nat.div_lt_self (by omega) (by omega)) c hc
        · rcases List.mem_singleton.mp hc with rfl
          exact digitChar_isDigit _

theorem foldl_digits_shift (b : List Char) :
    ∀ (x : Nat), b.foldl (fun a c => 10 * a + (c.toNat - 48)) x =
      x * 10 ^ b.length + b.foldl (fun a c => 10 * a + (c.toNat - 48)) 0 := by
  induction b with
  | nil => intro x; simp
  | cons c t ih =>
      intro x
      simp only [List.foldl_cons, List.length_cons]
      rw [ih (10 * x + (c.toNat - 48)), ih (10 * 0 + (c.toNat - 48))]
      ring

theorem natVal_append (a b : List Char) :
    natVal (a ++ b) = natVal a * 10 ^ b.length + natVal b := by
  unfold natVal
  rw [List.foldl_append]
  exact foldl_digits_shift b _

theorem natVal_singleton (c : Char) : natVal [c] = c.toNat - 48 := by
  simp [natVal]

theorem natVal_natDigits (n : Nat) : natVal (natDigits n) = n := by
  induction n using Nat.strong_induction_on with
  | _ n ih =>
      by_cases h : n < 10
      · rw [natDigits_lt10 h, natVal_singleton, digitChar_toNat (by omega)]
        omega
      · rw [natDigits_step h, natVal_append, natVal_singleton,
          digitChar_toNat (by omega : n % 10 ≤ 9)]
        rw [ih (n / 10) (Nat.div_lt_self (by omega) (by omega))]
        simp only [List.length_singleton, pow_one]
        omega

theorem natVal_replicate_zero (j : Nat) : natVal (List.replicate j '0') = 0 := by
  induction j with
  | zero => rfl
  | succ i ih =>
      rw [List.replicate_succ]
      unfold natVal at ih ⊢
      simp only [List.foldl_cons]
      simpa using ih

theorem natDigits_length_le : ∀ (k n : Nat), n < 10 ^ k → 1 ≤ k →
    (natDigits n).length ≤ k := by
  intro k
  induction k with
  | zero => intro n _ h1; omega
  | succ j ih =>
      intro n hn _
      by_cases h : n < 10
      · rw [natDigits_lt10 h]
        simp
      · have hj : 1 ≤ j := by
          by_contra hj
          have : j = 0 := by omega
          subst this
          norm_num at hn
          omega
        rw [natDigits_step h]
        simp only [List.length_append, List.length_singleton]
        have hd : n / 10 < 10 ^ j := by
          rw [Nat.div_lt_iff_lt_mul (by omega)]
          calc n < 10 ^ (j + 1) := hn
            _ = 10 ^ j * 10 := by ring
        have := ih (n / 10) hd hj
        omega

theorem den_dvd_pow10 {q : ℚ} (h : isDecimalRat q = true) :
    q.den ∣ 10 ^ (max (pval 2 q.den) (pval 5 q.den)) := by
  have hden : q.den = 2 ^ pval 2 q.den * 5 ^ pval 5 q.den := by
    simpa [isDecimalRat] using h
  rw [show (10 : Nat) ^ (max (pval 2 q.den) (pval 5 q.den)) =
    2 ^ (max (pval 2 q.den) (pval 5 q.den)) * 5 ^ (max (pval 2 q.den) (pval 5 q.den)) by
      rw [← Nat.mul_pow]]
  conv_lhs => rw [hden]
  exact Nat.mul_dvd_mul (pow_dvd_pow 2 (le_max_left _ _)) (pow_dvd_pow 5 (le_max_right _ _))

theorem renderPosQ_chars (num den k : Nat) :
    ∀ c ∈ renderPosQ num den k, c.isDigit = true ∨ c = '.' := by
  intro c hc
  unfold renderPosQ at hc
  by_cases hk : k = 0
  · rw [if_pos hk] at hc
    exact .inl (natDigits_all_digit _ c hc)
  · rw [if_neg hk] at hc
    rcases List.mem_append.mp hc with hc | hc
    · exact .inl (natDigits_all_digit _ c hc)
    · rcases List.mem_cons.mp hc with rfl | hc
      · exact .inr rfl
      · rcases List.mem_append.mp hc with hc | hc
        · rcases List.eq_of_mem_replicate hc with rfl
          exact .inl (by decide)
        · exact .inl (natDigits_all_digit _ c hc)

theorem renderPosQ_head (num den k : Nat) :
    ∃ c t, renderPosQ num den k = c :: t ∧ c.isDigit = true := by
  unfold renderPosQ
  by_cases hk : k = 0
  · rw [if_pos hk]
    cases hD : natDigits (num * 10 ^ k / den) with
    | nil => exact absurd hD (natDigits_ne_nil _)
    | cons c t =>
        exact ⟨c, t, rfl, natDigits_all_digit _ c (by rw [hD]; simp)⟩
  · rw [if_neg hk]
    cases hD : natDigits (num * 10 ^ k / den / 10 ^ k) with
    | nil => exact absurd hD (natDigits_ne_nil _)
    | cons c t =>
        refine ⟨c, t ++ '.' :: (List.replicate (k - (natDigits (num * 10 ^ k / den % 10 ^ k)).length) '0' ++
          natDigits (num * 10 ^ k / den % 10 ^ k)), by simp, ?_⟩
        exact natDigits_all_digit _ c (by rw [hD]; simp)

theorem renderQ_ne_nil (q : ℚ) : renderQ q ≠ [] := by
  unfold renderQ
  by_cases hq : q.num < 0
  · simp [hq]
  · rw [if_neg hq]
    obtain ⟨c, t, he, _⟩ := renderPosQ_head q.num.natAbs q.den (max (pval 2 q.den) (pval 5 q.den))
    rw [he]
    simp

theorem renderQ_nonWS (q : ℚ) : ∀ c ∈ renderQ q, isWS c = false := by
  intro c hc
  unfold renderQ at hc
  have hpos : ∀ x ∈ renderPosQ q.num.natAbs q.den (max (pval 2 q.den) (pval 5 q.den)),
      isWS x = false := by
    intro x hx
    rcases renderPosQ_chars _ _ _ x hx with h | rfl
    · exact isWS_false_of_isDigit h
    · rfl
  by_cases hq : q.num < 0
  · rw [if_pos hq] at hc
    rcases List.mem_cons.mp hc with rfl | hc
    · rfl
    · exact hpos c hc
  · rw [if_neg hq] at hc
    exact hpos c hc

theorem renderQ_ne_dot (q : ℚ) : renderQ q ≠ ['.'] := by
  unfold renderQ
  by_cases hq : q.num < 0
  · rw [if_pos hq]
    intro h
    have : '-' = '.' := by
      have := List.head_eq_of_cons_eq h
      exact this
    simp at this
  · rw [if_neg hq]
    obtain ⟨c, t, he, hd⟩ := renderPosQ_head q.num.natAbs q.den (max (pval 2 q.den) (pval 5 q.den))
    rw [he]
    intro h
    have hc : c = '.' := List.head_eq_of_cons_eq h
    subst hc
    simp [Char.isDigit] at hd

theorem takeWhile_all_self {p : Char → Bool} {l : List Char}
    (h : ∀ c ∈ l, p c = true) : l.takeWhile p = l := by
  have := @takeWhile_append_stop _ l [] h (by rfl)
  simpa using this

theorem atofUnsigned_renderPosQ (num den k : Nat) (hdvd : den ∣ 10 ^ k)
    (hden : 0 < den) :
    atofUnsigned (renderPosQ num den k) = (num : ℚ) / den := by
  have hdQ : ((den : ℚ)) ≠ 0 := by
    exact_mod_cast Nat.pos_iff_ne_zero.mp hden
  have hm : ((num * 10 ^ k / den : ℕ) : ℚ) = (num : ℚ) * 10 ^ k / den := by
    rw [Nat.cast_div (hdvd.mul_left num) hdQ]
    push_cast
    ring
  by_cases hk : k = 0
  · subst hk
    have hden1 : den = 1 := Nat.dvd_one.mp (by simpa using hdvd)
    subst hden1
    have hrender : renderPosQ num 1 0 = natDigits num := by
      unfold renderPosQ
      simp
    rw [hrender]
    unfold atofUnsigned
    rw [takeWhile_all_self (natDigits_all_digit num),
      dropWhile_all_nil (natDigits_all_digit num)]
    simp only [List.head?_nil]
    rw [if_neg (by simp [natDigits_ne_nil num])]
    norm_num [natVal_natDigits, show natVal [] = 0 from rfl]
  · have hkpos : 1 ≤ k := by omega
    set m := num * 10 ^ k / den with hmdef
    set F := natDigits (m % 10 ^ k) with hF
    set A := natDigits (m / 10 ^ k) with hA
    set P := List.replicate (k - F.length) '0' ++ F with hP
    have hrender : renderPosQ num den k = A ++ '.' :: P := by
      unfold renderPosQ
      rw [if_neg hk]
    have hlenF : F.length ≤ k :=
      natDigits_length_le k _ (Nat.mod_lt _ (by positivity)) hkpos
    have hPlen : P.length = k := by
      rw [hP]
      simp only [List.length_append, List.length_replicate]
      omega
    have hPdig : ∀ c ∈ P, c.isDigit = true := by
      intro c hc
      rcases List.mem_append.mp hc with hc | hc
      · rcases List.eq_of_mem_replicate hc with rfl
        decide
      · exact natDigits_all_digit _ c hc
    have hPval : natVal P = m % 10 ^ k := by
      rw [hP, natVal_append, natVal_replicate_zero, natVal_natDigits]
      simp
    rw [hrender]
    unfold atofUnsigned
    rw [takeWhile_append_stop (natDigits_all_digit _) (by simp [headOK]),
      dropWhile_append_stop (natDigits_all_digit _) (by simp [headOK])]
    simp only [List.head?_cons, List.drop_one, List.tail_cons, Option.some.injEq,
      eq_self_iff_true, if_true, takeWhile_all_self hPdig, dropWhile_all_nil hPdig]
    rw [if_neg (by simp [natDigits_ne_nil])]
    simp only [List.head?_nil]
    rw [if_neg (by simp)]
    rw [hPval, hPlen, natVal_natDigits]
    have hsplit : (10 : ℚ) ^ k * ((m / 10 ^ k : ℕ) : ℚ) + ((m % 10 ^ k : ℕ) : ℚ) = (m : ℚ) := by
      exact_mod_cast congrArg (Nat.cast : ℕ → ℚ) (Nat.div_add_mod m (10 ^ k))
    have h10 : ((10 : ℚ) ^ k) ≠ 0 := by positivity
    rw [zpow_zero, mul_one]
    rw [hm] at hsplit
    field_simp
    field_simp at hsplit
    linarith [hsplit]

theorem atofQ_renderQ {q : ℚ} (h : isDecimalRat q = true) : atofQ (renderQ q) = q := by
  have hdvd := den_dvd_pow10 h
  have hden : 0 < q.den := q.pos
  have hcore := atofUnsigned_renderPosQ q.num.natAbs q.den
    (max (pval 2 q.den) (pval 5 q.den)) hdvd hden
  obtain ⟨c, t, hX, hcd⟩ := renderPosQ_head q.num.natAbs q.den
    (max (pval 2 q.den) (pval 5 q.den))
  have hcm := ne_sign_of_isDigit hcd
  unfold renderQ atofQ
  by_cases hq : q.num < 0
  · rw [if_pos hq]
    have hs0 : ('-' :: renderPosQ q.num.natAbs q.den
        (max (pval 2 q.den) (pval 5 q.den))).dropWhile isWS =
        '-' :: renderPosQ q.num.natAbs q.den (max (pval 2 q.den) (pval 5 q.den)) :=
      dropWhile_cons_false (by rfl)
    rw [hs0]
    simp only [List.head?_cons, Option.some.injEq, eq_self_iff_true, if_true,
      decide_True, Bool.true_or, List.drop_one, List.tail_cons]
    rw [hcore]
    have habs : ((q.num.natAbs : ℚ)) = -(q.num : ℚ) := by
      rw [Int.cast_natAbs]
      exact_mod_cast abs_of_neg hq
    rw [habs]
    rw [show (-1 : ℚ) * (-(q.num : ℚ) / q.den) = (q.num : ℚ) / q.den by ring]
    exact_mod_cast Rat.num_div_den q
  · rw [if_neg hq]
    have hs0 : (renderPosQ q.num.natAbs q.den
        (max (pval 2 q.den) (pval 5 q.den))).dropWhile isWS =
        renderPosQ q.num.natAbs q.den (max (pval 2 q.den) (pval 5 q.den)) := by
      rw [hX]
      exact dropWhile_cons_false (isWS_false_of_isDigit hcd)
    rw [hs0]
    rw [hX]
    simp only [List.head?_cons, Option.some.injEq]
    rw [if_neg (by intro hc; exact hcm.1 hc), if_neg (by
      intro hor
      rcases Bool.or_eq_true_iff.mp hor with hc | hc
      · exact hcm.1 (by simpa using hc)
      · exact hcm.2 (by simpa using hc))]
    rw [← hX, hcore]
    have habs : ((q.num.natAbs : ℚ)) = (q.num : ℚ) := by
      rw [Int.cast_natAbs]
      exact_mod_cast abs_of_nonneg (not_lt.mp hq)
    rw [habs]
    rw [one_mul]
    exact_mod_cast Rat.num_div_den q

/-- The overflow threshold literal is `2 ^ 1024 - 2 ^ 970`. -/
theorem dblOvf_eq : dblOvf = ((2 ^ 1024 - 2 ^ 970 : Nat) : ℚ) := by
  norm_num [dblOvf]

theorem digit_toNat {c : Char} (h : c.isDigit = true) :
    48 ≤ c.toNat ∧ c.toNat ≤ 57 := by
  simp [Char.isDigit] at h
  exact ⟨h.1, h.2⟩

theorem lowc_digit {c : Char} (h : c.isDigit = true) : lowc c = c := by
  obtain ⟨h1, h2⟩ := digit_toNat h
  unfold lowc
  rw [if_neg]
  intro hc
  omega

theorem ciStarts_digit_head {p : Char} {ps : List Char} {c : Char} {t : List Char}
    (hd : c.isDigit = true) (hp : 97 ≤ p.toNat) :
    ciStarts (p :: ps) (c :: t) = false := by
  obtain ⟨h1, h2⟩ := digit_toNat hd
  have hne : ¬(c = p) := by
    intro hcp
    have h3 := congrArg Char.toNat hcp
    omega
  simp [ciStarts, lowc_digit hd, hne]

theorem isHexStart_digit_dot {s : List Char}
    (hh : ∀ ch ∈ s, ch.isDigit = true ∨ ch = '.') :
    isHexStart s = false := by
  cases s with
  | nil => rfl
  | cons c0 t0 =>
      cases t0 with
      | nil => rfl
      | cons c1 t1 =>
          cases t1 with
          | nil => rfl
          | cons c2 t2 =>
              have hc1 := hh c1 (by simp)
              have hx : ¬(c1 = 'x') := by
                rcases hc1 with h | h
                · intro hcp
                  obtain ⟨a, b⟩ := digit_toNat h
                  have h3 : c1.toNat = 120 := by rw [hcp]; decide
                  omega
                · intro hcp
                  rw [h] at hcp
                  exact absurd hcp (by decide)
              have hXc : ¬(c1 = 'X') := by
                rcases hc1 with h | h
                · intro hcp
                  obtain ⟨a, b⟩ := digit_toNat h
                  have h3 : c1.toNat = 88 := by rw [hcp]; decide
                  omega
                · intro hcp
                  rw [h] at hcp
                  exact absurd hcp (by decide)
              simp [isHexStart, hx, hXc]

theorem sgnStripWS_renderQ (q : ℚ) :
    sgnStripWS (renderQ q) =
      renderPosQ q.num.natAbs q.den (max (pval 2 q.den) (pval 5 q.den)) := by
  obtain ⟨c, t, hX, hcd⟩ := renderPosQ_head q.num.natAbs q.den
    (max (pval 2 q.den) (pval 5 q.den))
  have hcm := ne_sign_of_isDigit hcd
  unfold renderQ sgnStripWS
  by_cases hq : q.num < 0
  · rw [if_pos hq]
    rw [dropWhile_cons_false (by rfl : isWS '-' = false)]
    simp
  · rw [if_neg hq]
    rw [hX, dropWhile_cons_false (isWS_false_of_isDigit hcd)]
    simp only [List.head?_cons, Option.some.injEq]
    rw [if_neg (by
      intro hor
      rcases Bool.or_eq_true_iff.mp hor with hc | hc
      · exact hcm.1 (by simpa using hc)
      · exact hcm.2 (by simpa using hc))]

theorem atofD_decimal {s : List Char}
    (hinf : ciStarts ['i', 'n', 'f'] (sgnStripWS s) = false)
    (hnan : ciStarts ['n', 'a', 'n'] (sgnStripWS s) = false)
    (hhex : isHexStart (sgnStripWS s) = false)
    (hlo : -dblOvf < atofQ s) (hhi : atofQ s < dblOvf) :
    atofD s = Score.val (atofQ s) := by
  have hq : (if (s.dropWhile isWS).head? = some '-' then (-1 : ℚ) else 1) *
      atofUnsigned (sgnStripWS s) = atofQ s := by
    simp only [atofQ, sgnStripWS]
  simp only [atofD, hinf, hnan, hhex, Bool.false_eq_true, if_false, hq]
  rw [if_neg (not_le.mpr hlo), if_neg (not_le.mpr hhi)]

theorem atofD_renderQ {q : ℚ} (h : isDecimalRat q = true) (hlt : q < dblOvf)
    (hgt : -dblOvf < q) : atofD (renderQ q) = Score.val q := by
  have hq := atofQ_renderQ h
  have hstrip := sgnStripWS_renderQ q
  obtain ⟨c, t, hX, hcd⟩ := renderPosQ_head q.num.natAbs q.den
    (max (pval 2 q.den) (pval 5 q.den))
  have hch := renderPosQ_chars q.num.natAbs q.den (max (pval 2 q.den) (pval 5 q.den))
  have hinf : ciStarts ['i', 'n', 'f'] (sgnStripWS (renderQ q)) = false := by
    rw [hstrip, hX]
    exact ciStarts_digit_head hcd (by decide)
  have hnan : ciStarts ['n', 'a', 'n'] (sgnStripWS (renderQ q)) = false := by
    rw [hstrip, hX]
    exact ciStarts_digit_head hcd (by decide)
  have hhex : isHexStart (sgnStripWS (renderQ q)) = false := by
    rw [hstrip]
    exact isHexStart_digit_dot hch
  rw [atofD_decimal hinf hnan hhex (by rw [hq]; exact hgt) (by rw [hq]; exact hlt), hq]

theorem isWS_of_isTrimWS {c : Char} (h : isTrimWS c = true) : isWS c = true := by
  simp only [isTrimWS, Bool.or_eq_true, decide_eq_true_eq] at h
  rcases h with rfl | rfl <;> rfl

theorem trim_ws_core {ws X : List Char} (hws : ∀ c ∈ ws, isTrimWS c = true)
    (hX : X ≠ []) (hXc : ∀ c ∈ X, isTrimWS c = false) :
    trim (ws ++ X) = X := by
  have hne : ws ++ X ≠ [] := by
    intro h
    exact hX (List.append_eq_nil.mp h).2
  unfold trim
  rw [if_neg hne]
  have hrev : (ws ++ X).reverse = X.reverse ++ ws.reverse := by simp
  rw [hrev]
  have hrtrim : (X.reverse ++ ws.reverse).dropWhile isTrimWS = X.reverse ++ ws.reverse := by
    cases hXr : X.reverse with
    | nil =>
        exact absurd (by simpa using congrArg List.reverse hXr) hX
    | cons c cs =>
        have hc : c ∈ X := by
          rw [← List.mem_reverse, hXr]
          simp
        rw [List.cons_append]
        exact dropWhile_cons_false (hXc c hc)
  rw [hrtrim]
  have : (X.reverse ++ ws.reverse).reverse = ws ++ X := by simp
  rw [this]
  rw [dropWhile_append_all hws]
  cases hXc2 : X with
  | nil => exact absurd hXc2 hX
  | cons c cs =>
      exact dropWhile_cons_false (hXc c (by rw [hXc2]; simp))

/-- The sanitizer on a canonically rendered attribute value
`<space>"v"` yields `v` (for `v` nonempty without whitespace, quotes or
semicolons). -/
theorem sanitize_canonical {v : List Char} (hv : v ≠ [])
    (hchars : ∀ c ∈ v, isWS c = false ∧ c ≠ '"' ∧ c ≠ ';') :
    sanitize_attr_value (' ' :: '"' :: (v ++ ['"'])) = some v := by
  have hXc : ∀ c ∈ '"' :: (v ++ ['"']), isTrimWS c = false := by
    intro c hc
    rcases List.mem_cons.mp hc with rfl | hc
    · rfl
    · rcases List.mem_append.mp hc with hc | hc
      · have := (hchars c hc).1
        cases htw : isTrimWS c with
        | false => rfl
        | true => exact absurd (isWS_of_isTrimWS htw) (by simp [this])
      · rcases List.mem_singleton.mp hc with rfl
        rfl
  have htrim : trim (' ' :: '"' :: (v ++ ['"'])) = '"' :: (v ++ ['"']) := by
    have := @trim_ws_core [' '] ('"' :: (v ++ ['"']))
      (by intro c hc; rcases List.mem_singleton.mp hc with rfl; rfl)
      (by simp) hXc
    simpa using this
  unfold sanitize_attr_value
  rw [htrim]
  rw [if_neg (by simp)]
  simp only [List.head?_cons, Option.some.injEq, eq_self_iff_true, if_true, List.drop_one,
    List.tail_cons]
  rw [List.getLast?_concat]
  simp only [eq_self_iff_true, if_true]
  rw [List.dropLast_concat]

theorem mapInsert_append {m : List (List Char × List Char)} {k v : List Char}
    (hk : k ∉ m.map Prod.fst) : mapInsert m k v = m ++ [(k, v)] := by
  induction m with
  | nil => rfl
  | cons e t ih =>
      obtain ⟨a, b⟩ := e
      simp only [List.map_cons, List.mem_cons] at hk
      push_neg at hk
      simp only [mapInsert]
      rw [if_neg (fun hc => hk.1 hc.symm)]
      rw [ih hk.2]
      simp

theorem foldl_ins_of_disjoint :
    ∀ (attrs : List (List Char × List Char)) (acc : List (List Char × List Char)),
    KeysNodup attrs → (∀ k ∈ attrs.map Prod.fst, k ∉ acc.map Prod.fst) →
    attrs.foldl (fun acc e => mapInsert acc e.1 e.2) acc = acc ++ attrs := by
  intro attrs
  induction attrs with
  | nil => intro acc _ _; simp
  | cons e t ih =>
      intro acc hnd hdis
      simp only [KeysNodup, List.map_cons, List.nodup_cons] at hnd
      obtain ⟨he, ht⟩ := hnd
      simp only [List.foldl_cons]
      rw [mapInsert_append (hdis e.1 (by simp))]
      rw [ih (acc ++ [(e.1, e.2)]) ht ?_]
      · simp
      · intro k hk
        simp only [List.map_append, List.mem_append]
        rintro (hka | hke)
        · exact hdis k (by simp [hk]) hka
        · simp only [List.map_cons, List.map_nil, List.mem_singleton] at hke
          subst hke
          exact he hk

theorem foldl_ins_self (attrs : List (List Char × List Char)) (h : KeysNodup attrs) :
    attrs.foldl (fun acc e => mapInsert acc e.1 e.2) [] = attrs := by
  simpa using foldl_ins_of_disjoint attrs [] h (by simp)

theorem decodeLine_attrs_nodup {rec : GTFSequence} {l : List Char} {r : GTFSequence}
    (h : decodeLine rec l = some r) : KeysNodup r.attributes := by
  simp only [decodeLine] at h
  rw [attrLoop_eq_events] at h
  cases hA : attrEvents ((fixedPhase rec l).1.rem.length + 1) (fixedPhase rec l).1 [] [] with
  | none => rw [hA] at h; simp at h
  | some evs =>
      rw [hA] at h
      simp only [Option.map_some', Option.some.injEq] at h
      rw [← h]
      exact foldl_ins_keysNodup evs [] (by simp [KeysNodup])

/-- Running the attribute loop over canonically rendered attributes
inserts exactly those pairs, in order. -/
theorem attrLoop_render :
    ∀ (attrs : List (List Char × List Char)) (fuel : Nat) (tk tv : List Char)
      (m : List (List Char × List Char)),
    (∀ e ∈ attrs, e.1 ≠ [] ∧ (∀ c ∈ e.1, isWS c = false) ∧ e.2 ≠ [] ∧
      (∀ c ∈ e.2, isWS c = false ∧ c ≠ '"' ∧ c ≠ ';')) →
    (renderAttrs attrs).length < fuel →
    attrLoop fuel ⟨renderAttrs attrs, false⟩ tk tv m =
      some (attrs.foldl (fun acc e => mapInsert acc e.1 e.2) m) := by
  intro attrs
  induction attrs with
  | nil =>
      intro fuel tk tv m _ hfuel
      cases fuel with
      | zero => simp [renderAttrs] at hfuel
      | succ f =>
          simp only [attrLoop, renderAttrs]
          rw [show readStr ⟨[], false⟩ tk = (⟨[], true⟩, tk) from rfl]
          simp
  | cons e t ih =>
      intro fuel tk tv m hwf hfuel
      obtain ⟨hk1, hk2, hv1, hv2⟩ := hwf e (by simp)
      cases fuel with
      | zero =>
          simp only [renderAttrs, List.length_cons] at hfuel
          omega
      | succ f =>
          simp only [attrLoop]
          have hshape : renderAttrs (e :: t) =
              [' '] ++ (e.1 ++ (' ' :: '"' :: (e.2 ++ '"' :: ';' :: renderAttrs t))) := by
            simp [renderAttrs]
          have hrs := @readStr_spec [' '] e.1 (' ' :: '"' :: (e.2 ++ '"' :: ';' :: renderAttrs t)) tk
            (by intro c hc; rcases List.mem_singleton.mp hc with rfl; rfl)
            hk1 hk2 (by rfl)
          rw [hshape, hrs]
          simp only [Bool.false_eq_true, if_false]
          have hgl : getlineSemi ⟨' ' :: '"' :: (e.2 ++ '"' :: ';' :: renderAttrs t), false⟩ tv =
              (⟨renderAttrs t, false⟩, ' ' :: '"' :: (e.2 ++ ['"'])) := by
            have heq : ' ' :: '"' :: (e.2 ++ '"' :: ';' :: renderAttrs t) =
                (' ' :: '"' :: (e.2 ++ ['"'])) ++ ';' :: renderAttrs t := by
              simp
            rw [heq]
            apply getlineSemi_spec
            intro c hc
            rcases List.mem_cons.mp hc with rfl | hc
            · decide
            · rcases List.mem_cons.mp hc with rfl | hc
              · decide
              · rcases List.mem_append.mp hc with hc | hc
                · exact (hv2 c hc).2.2
                · rcases List.mem_singleton.mp hc with rfl
                  decide
          rw [hgl]
          simp only
          have hsan : sanitize_attr_value (' ' :: '"' :: (e.2 ++ ['"'])) = some e.2 :=
            sanitize_canonical hv1 hv2
          rw [hsan]
          have hlen : (renderAttrs t).length < f := by
            simp only [renderAttrs, List.length_cons, List.length_append] at hfuel
            omega
          show attrLoop f ⟨renderAttrs t, false⟩ e.1 e.2 (mapInsert m e.1 e.2) =
            some ((e :: t).foldl (fun acc e => mapInsert acc e.1 e.2) m)
          rw [ih f e.1 e.2 (mapInsert m e.1 e.2) (fun x hx => hwf x (by simp [hx])) hlen]
          rw [List.foldl_cons]

/-- Full symbolic run of the fixed extractions on a canonically
serialized line. -/
theorem fixedPhase_full {c1 c2 c3 d4 d5 c6 : List Char} {st8 d8 : Char} {rest : List Char}
    (rec : GTFSequence)
    (h1 : NWtok c1) (h2 : NWtok c2) (h3 : NWtok c3) (h4 : DGtok d4) (h5 : DGtok d5)
    (h6 : NWtok c6) (hst : isWS st8 = false) (h8 : d8.isDigit = true)
    (hrest : headOK (fun c => !c.isDigit) rest = true)
    (hf4 : natVal d4 ≤ 18446744073709551615) (hf5 : natVal d5 ≤ 18446744073709551615) :
    fixedPhase rec (c1 ++ '\t' :: (c2 ++ '\t' :: (c3 ++ '\t' :: (d4 ++ '\t' :: (d5 ++ '\t' ::
      (c6 ++ '\t' :: (st8 :: '\t' :: (d8 :: rest)))))))) =
      (⟨rest, false⟩,
       { rec with
          seqname := c1, source := c2, feature := c3,
          start := natVal d4, end_ := natVal d5, strand := st8,
          frame := ((d8.toNat - 48 : Nat) : Int) },
       c6) := by
  have htabWS : ∀ c ∈ ['\t'], isWS c = true := by
    intro c hc
    rcases List.mem_singleton.mp hc with rfl
    rfl
  have e1 := @readStr_spec [] _ _ rec.seqname (by simp) h1.1 h1.2
    (show headOK isWS ('\t' :: (c2 ++ '\t' :: (c3 ++ '\t' :: (d4 ++ '\t' :: (d5 ++ '\t' ::
      (c6 ++ '\t' :: (st8 :: '\t' :: (d8 :: rest)))))))) = true from rfl)
  have e2 := @readStr_spec ['\t'] _ _ rec.source htabWS h2.1 h2.2
    (show headOK isWS ('\t' :: (c3 ++ '\t' :: (d4 ++ '\t' :: (d5 ++ '\t' ::
      (c6 ++ '\t' :: (st8 :: '\t' :: (d8 :: rest))))))) = true from rfl)
  have e3 := @readStr_spec ['\t'] _ _ rec.feature htabWS h3.1 h3.2
    (show headOK isWS ('\t' :: (d4 ++ '\t' :: (d5 ++ '\t' ::
      (c6 ++ '\t' :: (st8 :: '\t' :: (d8 :: rest)))))) = true from rfl)
  have e4 := @readNat64_spec ['\t'] _ _ rec.start htabWS h4
    (show headOK (fun c => !c.isDigit) ('\t' :: (d5 ++ '\t' ::
      (c6 ++ '\t' :: (st8 :: '\t' :: (d8 :: rest))))) = true from rfl) hf4
  have e5 := @readNat64_spec ['\t'] _ _ rec.end_ htabWS h5
    (show headOK (fun c => !c.isDigit) ('\t' ::
      (c6 ++ '\t' :: (st8 :: '\t' :: (d8 :: rest)))) = true from rfl) hf5
  have e6 := @readStr_spec ['\t'] _ _ ([] : List Char) htabWS h6.1 h6.2
    (show headOK isWS ('\t' :: (st8 :: '\t' :: (d8 :: rest))) = true from rfl)
  have e7 := @readChar_spec ['\t'] _ ('\t' :: (d8 :: rest)) rec.strand htabWS hst
  have e8 := @readShort_digit_spec ['\t'] _ _ rec.frame htabWS h8 hrest
  have hnv : natVal [d8] = d8.toNat - 48 := by simp [natVal]
  simp only [List.nil_append, List.singleton_append] at e1 e2 e3 e4 e5 e6 e7 e8
  simp only [fixedPhase, e1, e2, e3, e4, e5, e6, e7, e8]

theorem matches_nonWS_plus {s : List Char} (hne : s ≠ [])
    (hall : ∀ c ∈ s, isWS c = false) : RE.Matches (RE.plus nonWSre) s :=
  RE.matches_plus_cls.mpr ⟨hne, fun c hc => by simp [hall c hc]⟩

theorem matches_digit_plus {s : List Char} (h : DGtok s) :
    RE.Matches (RE.plus digitRE) s :=
  RE.matches_plus_cls.mpr ⟨h.1, h.2⟩

theorem matches_tab : RE.Matches tabRE ['\t'] :=
  RE.Matches.cls (by decide)

/-- A canonically rendered attribute list matches the attribute star of
the pattern. -/
theorem renderAttrs_matches {attrs : List (List Char × List Char)}
    (hwf : ∀ e ∈ attrs, e.1 ≠ [] ∧ (∀ c ∈ e.1, isWS c = false) ∧ e.2 ≠ [] ∧
      (∀ c ∈ e.2, isWS c = false ∧ c ≠ '"' ∧ c ≠ ';')) :
    RE.Matches (.star attrGroupRE) (renderAttrs attrs) := by
  induction attrs with
  | nil => exact .starNil
  | cons e t ih =>
      obtain ⟨hk1, hk2, hv1, hv2⟩ := hwf e (by simp)
      have hchunk : RE.Matches attrGroupRE
          ([' '] ++ (e.1 ++ ([' '] ++ (['"'] ++ (e.2 ++ (['"'] ++ [';'])))))) := by
        refine RE.Matches.cat (RE.Matches.cls (by decide)) ?_
        refine RE.Matches.cat (matches_nonWS_plus hk1 hk2) ?_
        refine RE.Matches.cat (RE.Matches.cls (by decide)) ?_
        refine RE.Matches.cat (RE.Matches.altR (RE.Matches.cls (by decide))) ?_
        refine RE.Matches.cat ?_ ?_
        · refine RE.matches_plus_cls.mpr ⟨hv1, ?_⟩
          intro c hc
          obtain ⟨hws, hq, _⟩ := hv2 c hc
          have ht : c ≠ '\t' := by
            intro hc'
            subst hc'
            simp [isWS] at hws
          simp [hws, hq, ht]
        · exact RE.Matches.cat (RE.Matches.altR (RE.Matches.cls (by decide)))
            (RE.Matches.cls (by decide))
      have hstep := RE.Matches.starCons hchunk (ih (fun x hx => hwf x (by simp [hx])))
      have hshape : ([' '] ++ (e.1 ++ ([' '] ++ (['"'] ++ (e.2 ++ (['"'] ++ [';'])))))) ++
          renderAttrs t = renderAttrs (e :: t) := by
        simp [renderAttrs]
      rw [hshape] at hstep
      exact hstep

/-- Completeness of the validation on the eight-column-with-attributes
shape: such lines are accepted. -/
theorem valid_line_construct {c1 c2 c3 d4 d5 c6 c7 : List Char} {d8 : Char}
    {rest : List Char}
    (h1 : NWtok c1) (h2 : NWtok c2) (h3 : NWtok c3) (h4 : DGtok d4) (h5 : DGtok d5)
    (h6 : NWtok c6) (h7 : NWtok c7) (h8 : d8.isDigit = true)
    (hA : RE.Matches (.star attrGroupRE) rest) :
    valid_line (c1 ++ '\t' :: (c2 ++ '\t' :: (c3 ++ '\t' :: (d4 ++ '\t' :: (d5 ++ '\t' ::
      (c6 ++ '\t' :: (c7 ++ '\t' :: (d8 :: rest)))))))) = true := by
  apply RE.matchB_iff.mpr
  unfold valid_gtf_line_regex
  have hm : RE.Matches
      (RE.cat (RE.plus nonWSre) (RE.cat tabRE
        (RE.cat (RE.plus nonWSre) (RE.cat tabRE
          (RE.cat (RE.plus nonWSre) (RE.cat tabRE
            (RE.cat (RE.plus digitRE) (RE.cat tabRE
              (RE.cat (RE.plus digitRE) (RE.cat tabRE
                (RE.cat (RE.plus nonWSre) (RE.cat tabRE
                  (RE.cat (RE.plus nonWSre) (RE.cat tabRE
                    (RE.cat digitRE (RE.star attrGroupRE))))))))))))))))
      (c1 ++ (['\t'] ++ (c2 ++ (['\t'] ++ (c3 ++ (['\t'] ++ (d4 ++ (['\t'] ++ (d5 ++ (['\t'] ++
        (c6 ++ (['\t'] ++ (c7 ++ (['\t'] ++ ([d8] ++ rest))))))))))))))) := by
    refine RE.Matches.cat (matches_nonWS_plus h1.1 h1.2) ?_
    refine RE.Matches.cat matches_tab ?_
    refine RE.Matches.cat (matches_nonWS_plus h2.1 h2.2) ?_
    refine RE.Matches.cat matches_tab ?_
    refine RE.Matches.cat (matches_nonWS_plus h3.1 h3.2) ?_
    refine RE.Matches.cat matches_tab ?_
    refine RE.Matches.cat (matches_digit_plus h4) ?_
    refine RE.Matches.cat matches_tab ?_
    refine RE.Matches.cat (matches_digit_plus h5) ?_
    refine RE.Matches.cat matches_tab ?_
    refine RE.Matches.cat (matches_nonWS_plus h6.1 h6.2) ?_
    refine RE.Matches.cat matches_tab ?_
    refine RE.Matches.cat (matches_nonWS_plus h7.1 h7.2) ?_
    refine RE.Matches.cat matches_tab ?_
    exact RE.Matches.cat (RE.Matches.cls h8) hA
  simpa [List.append_assoc] using hm

theorem ne_nil_of_not_empty {s : List Char} (h : (!s.isEmpty) = true) : s ≠ [] := by
  cases s with
  | nil => simp at h
  | cons a t => exact fun hc => List.noConfusion hc

theorem all_not_ws {s : List Char} (h : s.all (fun c => !isWS c) = true) :
    ∀ c ∈ s, isWS c = false := by
  intro c hc
  simpa using List.all_eq_true.mp h c hc

theorem renderAttrs_headOK (attrs : List (List Char × List Char)) :
    headOK (fun c => !c.isDigit) (renderAttrs attrs) = true := by
  cases attrs with
  | nil => rfl
  | cons e t => rfl

/-- C9 (amended): for a grammar-accepted line whose decoded record is
well-formed for serialization — fixed tokens nonempty and whitespace-free,
coordinates in 64-bit range, a sentinel or finite-decimal score, a
single-digit frame, attribute keys and values free of whitespace, quotes
and semicolons — serializing the record yields a line the grammar accepts
again and whose decode returns the identical record. -/
theorem c9_serialize_roundtrip (rec rec2 : GTFSequence) (l : List Char) (r : GTFSequence)
    (hv : valid_line l = true) (hdec : decodeLine rec l = some r)
    (hwf : WFSeqB r = true) :
    valid_line (serialize r) = true ∧ decodeLine rec2 (serialize r) = some r := by
  simp only [WFSeqB, Bool.and_eq_true] at hwf
  obtain ⟨⟨⟨⟨⟨⟨⟨⟨⟨hsn1, hsn2⟩, hso1, hso2⟩, hfe1, hfe2⟩, hst⟩, hen⟩, hsc⟩, hsd⟩, hfr1, hfr2⟩,
    hat⟩ := hwf
  have hstart : r.start ≤ 18446744073709551615 := of_decide_eq_true hst
  have hend : r.end_ ≤ 18446744073709551615 := of_decide_eq_true hen
  have hstrand : isWS r.strand = false := by simpa using hsd
  have hfr1' : 0 ≤ r.frame := of_decide_eq_true hfr1
  have hfr2' : r.frame ≤ 9 := of_decide_eq_true hfr2
  have hwfAttrs : ∀ e ∈ r.attributes, e.1 ≠ [] ∧ (∀ c ∈ e.1, isWS c = false) ∧ e.2 ≠ [] ∧
      (∀ c ∈ e.2, isWS c = false ∧ c ≠ '"' ∧ c ≠ ';') := by
    intro e he
    have h := List.all_eq_true.mp hat e he
    simp only [Bool.and_eq_true] at h
    obtain ⟨⟨hk1, hk2⟩, hv1, hv2⟩ := h
    refine ⟨ne_nil_of_not_empty hk1, all_not_ws hk2, ne_nil_of_not_empty hv1, ?_⟩
    intro c hc
    have h2 := List.all_eq_true.mp hv2 c hc
    simp only [Bool.and_eq_true, Bool.not_eq_true', decide_eq_false_iff_not] at h2
    exact ⟨h2.1.1, h2.1.2, h2.2⟩
  have hfr9 : r.frame.natAbs ≤ 9 := by omega
  have hid : intDigits r.frame = [digitChar r.frame.natAbs] := by
    unfold intDigits
    rw [if_neg (by omega)]
    exact natDigits_lt10 (by omega)
  have hshape : serialize r =
      r.seqname ++ '\t' :: (r.source ++ '\t' :: (r.feature ++ '\t' ::
        (natDigits r.start ++ '\t' :: (natDigits r.end_ ++ '\t' ::
          (renderScore r.score ++ '\t' :: ([r.strand] ++ '\t' ::
            (digitChar r.frame.natAbs :: renderAttrs r.attributes))))))) := by
    simp [serialize, hid]
  have hscNW : NWtok (renderScore r.score) := by
    cases hs : r.score with
    | inf => exact ⟨by decide, by decide⟩
    | val q => exact ⟨renderQ_ne_nil q, renderQ_nonWS q⟩
    | negInf => rw [hs] at hsc; simp at hsc
    | nan => rw [hs] at hsc; simp at hsc
  have hstrNW : NWtok [r.strand] := by
    refine ⟨by simp, ?_⟩
    intro c hc
    rcases List.mem_singleton.mp hc with rfl
    exact hstrand
  constructor
  · rw [hshape]
    exact valid_line_construct ⟨ne_nil_of_not_empty hsn1, all_not_ws hsn2⟩
      ⟨ne_nil_of_not_empty hso1, all_not_ws hso2⟩
      ⟨ne_nil_of_not_empty hfe1, all_not_ws hfe2⟩
      ⟨natDigits_ne_nil _, natDigits_all_digit _⟩
      ⟨natDigits_ne_nil _, natDigits_all_digit _⟩
      hscNW hstrNW (digitChar_isDigit _) (renderAttrs_matches hwfAttrs)
  · have hnodup : KeysNodup r.attributes := decodeLine_attrs_nodup hdec
    have hfix := fixedPhase_full rec2
      ⟨ne_nil_of_not_empty hsn1, all_not_ws hsn2⟩
      ⟨ne_nil_of_not_empty hso1, all_not_ws hso2⟩
      ⟨ne_nil_of_not_empty hfe1, all_not_ws hfe2⟩
      ⟨natDigits_ne_nil r.start, natDigits_all_digit r.start⟩
      ⟨natDigits_ne_nil r.end_, natDigits_all_digit r.end_⟩
      hscNW hstrand (digitChar_isDigit r.frame.natAbs)
      (renderAttrs_headOK r.attributes)
      (by rw [natVal_natDigits]; exact hstart)
      (by rw [natVal_natDigits]; exact hend)
    have hscore : (if renderScore r.score = ['.'] then NO_SCORE
        else atofD (renderScore r.score)) = r.score := by
      cases hs : r.score with
      | inf => simp [renderScore, NO_SCORE]
      | val q =>
          rw [hs] at hsc
          have hsc2 : (isDecimalRat q && decide (q < dblOvf) && decide (-dblOvf < q)) =
              true := hsc
          simp only [Bool.and_eq_true, decide_eq_true_eq] at hsc2
          obtain ⟨⟨hd1, hlt⟩, hgt⟩ := hsc2
          simp only [renderScore]
          rw [if_neg (renderQ_ne_dot q), atofD_renderQ hd1 hlt hgt]
      | negInf => rw [hs] at hsc; simp at hsc
      | nan => rw [hs] at hsc; simp at hsc
    have hfr : (((digitChar r.frame.natAbs).toNat - 48 : Nat) : Int) = r.frame := by
      rw [digitChar_toNat hfr9]
      omega
    simp only [decodeLine, hshape, List.singleton_append, hfix]
    rw [attrLoop_render r.attributes _ [] [] [] hwfAttrs (Nat.lt_succ_self _)]
    simp only [Option.map_some']
    rw [foldl_ins_self r.attributes hnodup, hscore, hfr, natVal_natDigits, natVal_natDigits]

unseal Rat.add Rat.mul Rat.inv Rat.sub in
theorem c9_witness :
    valid_line (serialize (⟨"a".toList, "b".toList, "c".toList, 1, 2, Score.inf, '+', 0,
        [("k".toList, "v".toList)]⟩ : GTFSequence)) = true ∧
    decodeLine defaultSeq (serialize (⟨"a".toList, "b".toList, "c".toList, 1, 2, Score.inf, '+',
        0, [("k".toList, "v".toList)]⟩ : GTFSequence)) =
      some ⟨"a".toList, "b".toList, "c".toList, 1, 2, Score.inf, '+', 0,
        [("k".toList, "v".toList)]⟩ :=
  c9_serialize_roundtrip defaultSeq defaultSeq ("a\tb\tc\t1\t2\t.\t+\t0\tk \"v\";".toList)
    ⟨"a".toList, "b".toList, "c".toList, 1, 2, Score.inf, '+', 0, [("k".toList, "v".toList)]⟩
    (by decide) (by decide) (by decide)

